import Mathlib

/-! BackendAC18: paginated fetch-and-upsert orchestrators.

A shallow embedding of `src/data/discord.js`, `src/data/github.js` and
`src/data/gmail.js`.  Each orchestrator is a pure function of

* its options,
* an environment holding the external collaborators as oracles (the remote API,
  the reject/accept decision of the document store for the i-th item, the clock),
* the contents of the document store before the run.

A run yields the value returned or the error thrown, the store afterwards and the
ordered log of network requests and store writes it issued.
-/

namespace BackendAC18

/-! ## JavaScript helpers -/

/-- Truthiness of a possibly absent string: `undefined` and the empty string are falsy. -/
def truthy : Option String → Bool
  | some s => s != ""
  | none => false

/-- The expression `a || b` for a possibly absent string `a` and a string `b`. -/
def orStr (a : Option String) (b : String) : String :=
  match a with
  | some s => if s = "" then b else s
  | none => b

/-- The expression `a || b` on numbers: `0` (and `NaN`, `undefined`: absent) is falsy. -/
def orNat (a : Option Nat) (b : Nat) : Nat :=
  match a with
  | some n => if n = 0 then b else n
  | none => b

/-- A JavaScript `Date` value, kept symbolic in the way it was constructed. -/
inductive JsDate where
  /-- The date `new Date(s)` parsed from a string. -/
  | parse (s : String)
  /-- The date `new Date(Number(s))` of a numeric string. -/
  | ofNumeric (s : String)
  /-- The date `new Date(n)` of a number of milliseconds since the Unix epoch. -/
  | ms (n : Nat)
  deriving DecidableEq, Repr

/-- The character class `\s` of a JavaScript regular expression, which is also the
set of characters removed by `String.prototype.trim`. -/
def isWs (c : Char) : Bool :=
  let n := c.toNat
  (9 ≤ n && n ≤ 13) || n == 32 || n == 160 || n == 5760 || (8192 ≤ n && n ≤ 8202) ||
    n == 8232 || n == 8233 || n == 8239 || n == 8287 || n == 12288 || n == 65279

/-- The method `s.trim()`. -/
def jsTrim (s : List Char) : List Char :=
  ((s.dropWhile isWs).reverse.dropWhile isWs).reverse

/-- The call `s.split(',')`. -/
def splitComma : List Char → List (List Char)
  | [] => [[]]
  | c :: cs =>
    if c = ',' then [] :: splitComma cs
    else
      match splitComma cs with
      | [] => [[c]]
      | h :: t => (c :: h) :: t

/-- The call `s.replace(/<[^>]+>/g, ' ')`.  The first argument counts the characters
still to be skipped because they belong to a tag that has already been replaced. -/
def stripTagsAux : Nat → List Char → List Char
  | _, [] => []
  | k + 1, _ :: cs => stripTagsAux k cs
  | 0, c :: cs =>
    if c = '<' then
      let inner := cs.takeWhile (fun x => x != '>')
      if inner ≠ [] ∧ (cs.drop inner.length).head? = some '>' then
        ' ' :: stripTagsAux (inner.length + 1) cs
      else '<' :: stripTagsAux 0 cs
    else c :: stripTagsAux 0 cs

/-- The call `s.replace(/\s+/g, ' ')`.  The flag tells whether the previous character
was white space (whose run has already been replaced by one blank). -/
def collapseWsAux : Bool → List Char → List Char
  | _, [] => []
  | inRun, c :: cs =>
    if isWs c then
      if inRun then collapseWsAux true cs else ' ' :: collapseWsAux true cs
    else c :: collapseWsAux false cs

/-- The expression `html.replace(/<[^>]+>/g, ' ').replace(/\s+/g, ' ').trim()`. -/
def htmlToText (html : String) : String :=
  String.mk (jsTrim (collapseWsAux false (stripTagsAux 0 html.data)))

/-- The method `s.toLowerCase()`, on the ASCII letters. -/
def lower (s : String) : String :=
  String.mk (s.data.map Char.toLower)

/-! ## The document store -/

/-- One collection of the document store: rows of natural key and record. -/
abbrev Store (K D : Type) := List (K × D)

/-- The call `Model.updateOne(key, { $set: doc }, { upsert: true })` when the store
accepts it: the record under the key is replaced, or a new row is added. -/
def upsert {K D : Type} [DecidableEq K] (k : K) (d : D) : Store K D → Store K D
  | [] => [(k, d)]
  | (k0, d0) :: rest => if k0 = k then (k, d) :: rest else (k0, d0) :: upsert k d rest

/-- Lookup of a record by natural key. -/
def lookup {K D : Type} [DecidableEq K] (k : K) : Store K D → Option D
  | [] => none
  | (k0, d0) :: rest => if k0 = k then some d0 else lookup k rest

/-- The natural keys of the rows of a collection, in row order. -/
def keys {K D : Type} (s : Store K D) : List K := s.map Prod.fst

/-! ## Runs -/

/-- Something a run did to the outside world. -/
inductive Event (R K : Type) where
  /-- A network request. -/
  | request (r : R)
  /-- A call of `updateOne` on the store. -/
  | write (k : K)
  deriving DecidableEq, Repr

/-- The counters object `{ requested, success, failed }`. -/
structure Counters where
  requested : Nat
  success : Nat
  failed : Nat
  deriving DecidableEq, Repr

/-- How a call of an orchestrator ends. -/
inductive Result where
  /-- The promise rejects with an error. -/
  | threw (message : String)
  /-- The promise resolves to the counters. -/
  | returned (c : Counters)
  deriving DecidableEq, Repr

/-- The local variables of a run in progress together with the store and the log. -/
structure Run (R K D : Type) where
  fetched : Nat := 0
  success : Nat := 0
  failed : Nat := 0
  store : Store K D
  log : List (Event R K) := []
  thrown : Option String := none

/-- What a finished call leaves behind. -/
structure Outcome (R K D : Type) where
  result : Result
  store : Store K D
  log : List (Event R K)

/-- The statement `return { requested: fetched, success, failed }`, or the error that
escaped the loop. -/
def Run.finish {R K D : Type} (r : Run R K D) : Outcome R K D :=
  { result :=
      match r.thrown with
      | some e => Result.threw e
      | none => Result.returned ⟨r.fetched, r.success, r.failed⟩
    store := r.store
    log := r.log }

/-- A call that throws before doing anything. -/
def rejectCall {R K D : Type} (message : String) (store : Store K D) : Outcome R K D :=
  { result := Result.threw message, store := store, log := [] }

/-- The network requests of a log, in order. -/
def requestsOf {R K : Type} : List (Event R K) → List R
  | [] => []
  | Event.request r :: rest => r :: requestsOf rest
  | Event.write _ :: rest => requestsOf rest

/-- The keys written to the store in a log, in order. -/
def writesOf {R K : Type} : List (Event R K) → List K
  | [] => []
  | Event.request _ :: rest => writesOf rest
  | Event.write k :: rest => k :: writesOf rest

/-! ## IEEE-754 binary64 rounding, for the snowflake fallback -/

/-- The number of low bits of `x` that do not fit a 53-bit significand: how often `x`
has to be halved to get below `2 ^ 53`.  The first argument bounds the search. -/
def excessBits : Nat → Nat → Nat
  | 0, _ => 0
  | fuel + 1, x => if x < 2 ^ 53 then 0 else excessBits fuel (x / 2) + 1

/-- Rounding of a natural number to the nearest number with a 53-bit significand, ties
to even: the value of a binary64 operation whose exact result is `x` (below `2 ^ 1024`). -/
def roundDouble (x : Nat) : Nat :=
  let s := excessBits 1024 x
  let q := x / 2 ^ s
  let r := x % 2 ^ s
  if 2 * r < 2 ^ s then q * 2 ^ s
  else if 2 ^ s < 2 * r then (q + 1) * 2 ^ s
  else if q % 2 = 0 then q * 2 ^ s
  else (q + 1) * 2 ^ s

/-- The time value of `new Date(id / 4194304 + 1420070400000)` for the id whose decimal
digits denote `n`.  The string is converted to the nearest double; the division by
`2 ^ 22` is exact; the sum is rounded to the nearest double, which in units of
`2 ^ -22` ms is `roundDouble (roundDouble n + 1420070400000 * 2 ^ 22)`; and `Date`
truncates its argument to whole milliseconds. -/
def snowflakeDateMs (n : Nat) : Nat :=
  roundDouble (roundDouble n + 1420070400000 * 4194304) / 4194304

/-! ## Discord (`src/data/discord.js`) -/

namespace Discord

/-- The `author` object of a message. -/
structure Author where
  id : Option String
  username : Option String
  deriving DecidableEq, Repr

/-- An element of the `attachments` array of a message. -/
structure Attachment where
  url : Option String
  deriving DecidableEq, Repr

/-- A message object of the Discord API.  The id is a snowflake: on the wire the
decimal digits of a natural number, hence a non-empty (truthy) string. -/
structure Message where
  id : Nat
  guild_id : Option String := none
  author : Option Author := none
  content : Option String := none
  /-- An absent array, or an array whose elements may be `null`. -/
  attachments : Option (List (Option Attachment)) := none
  timestamp : Option String := none
  deriving DecidableEq, Repr

/-- The document written for a message. -/
structure Doc where
  userId : String
  guildId : Option String
  channelId : String
  messageId : Nat
  authorId : Option String
  authorUsername : Option String
  content : String
  attachments : List (Option String)
  createdAt : JsDate
  fetchedAt : Nat
  deriving DecidableEq, Repr

/-- The natural key `{ userId, channelId, messageId }`. -/
abbrev Key := String × String × Nat

/-- The query of `GET /channels/{channelId}/messages`. -/
structure Request where
  channelId : String
  limit : Nat
  before : Option Nat
  deriving DecidableEq, Repr

/-- The collaborators of a Discord run. -/
structure Env where
  /-- The variable `process.env.DISCORD_BOT_TOKEN`. -/
  token : Option String
  /-- The answer of the API to the p-th page request of the run: the message thrown
  for a response that is not ok, or the messages of the page. -/
  api : Nat → Request → Except String (List Message)
  /-- Whether the store rejects the `updateOne` of the i-th message of the run. -/
  rejects : Nat → Bool
  /-- The clock read by `new Date()` while the i-th message is processed. -/
  now : Nat → Nat

/-- The options `{ userId, channelId, pages = 3, perPage = 100 }`. -/
structure Options where
  userId : Option String
  channelId : Option String
  pages : Nat := 3
  perPage : Nat := 100

/-- The state of a Discord run; a request is logged with the index of its page. -/
abbrev DRun := Run (Nat × Request) Key Doc

/-- The function `fetchPage(channelId, { limit, before })` called for page `p`.  The
cursor is sent whenever it is present: an id is a non-empty string, hence truthy. -/
def fetchPage (env : Env) (p : Nat) (channelId : String) (limit : Nat)
    (before : Option Nat) : Except String (List Message) :=
  env.api p { channelId := channelId, limit := min limit 100, before := before }

/-- The expression `(m.attachments || []).map(a => a.url)`; reading `url` of a `null`
element throws. -/
def attachmentUrls : List (Option Attachment) → Option (List (Option String))
  | [] => some []
  | none :: _ => none
  | some a :: rest => (attachmentUrls rest).map (fun urls => a.url :: urls)

/-- The fallback `m.timestamp ? new Date(m.timestamp) : new Date(m.id / 4194304 + 1420070400000)`. -/
def createdAt (m : Message) : JsDate :=
  if truthy m.timestamp then JsDate.parse (m.timestamp.getD "")
  else JsDate.ms (snowflakeDateMs m.id)

/-- The object literal `doc` built for a message; `none` when building it throws. -/
def buildDoc (userId channelId : String) (now : Nat) (m : Message) : Option Doc :=
  match attachmentUrls (m.attachments.getD []) with
  | none => none
  | some urls =>
    some
      { userId := userId
        guildId := m.guild_id
        channelId := channelId
        messageId := m.id
        authorId := m.author.bind (fun a => a.id)
        authorUsername := m.author.bind (fun a => a.username)
        content := orStr m.content ""
        attachments := urls
        createdAt := createdAt m
        fetchedAt := now }

/-- The body of `for (const m of msgs)`: count the message, build and upsert its
document, count the success or the caught failure. -/
def processMessage (env : Env) (userId channelId : String) (st : DRun) (m : Message) : DRun :=
  let i := st.fetched
  let st1 := { st with fetched := i + 1 }
  match buildDoc userId channelId (env.now i) m with
  | none => { st1 with failed := st1.failed + 1 }
  | some doc =>
    let st2 := { st1 with log := st1.log ++ [Event.write (userId, channelId, m.id)] }
    if env.rejects i then { st2 with failed := st2.failed + 1 }
    else
      { st2 with
        store := upsert (userId, channelId, m.id) doc st2.store
        success := st2.success + 1 }

/-- The loop `for (let p = 0; p < pages; p++)`; the first argument is `pages - p`. -/
def pageLoop (env : Env) (userId channelId : String) (perPage : Nat) :
    Nat → Nat → Option Nat → DRun → DRun
  | 0, _, _, st => st
  | n + 1, p, before, st =>
    let req : Request := { channelId := channelId, limit := min perPage 100, before := before }
    let st1 := { st with log := st.log ++ [Event.request (p, req)] }
    match fetchPage env p channelId perPage before with
    | Except.error e => { st1 with thrown := some e }
    | Except.ok msgs =>
      if msgs.isEmpty then st1
      else
        pageLoop env userId channelId perPage n (p + 1) (msgs.getLast?.map (fun m => m.id))
          (msgs.foldl (processMessage env userId channelId) st1)

/-- The function `fetchAndStoreDiscord`. -/
def fetchAndStoreDiscord (env : Env) (o : Options) (store : Store Key Doc) :
    Outcome (Nat × Request) Key Doc :=
  if !truthy env.token then rejectCall "DISCORD_BOT_TOKEN missing" store
  else if !truthy o.userId then rejectCall "userId required" store
  else if !truthy o.channelId then rejectCall "channelId required" store
  else
    (pageLoop env (o.userId.getD "") (o.channelId.getD "") o.perPage o.pages 0 none
      { store := store }).finish

/-- The messages of a listing that come after the one with id `b`. -/
def olderThan (b : Nat) : List Message → List Message
  | [] => []
  | m :: rest => if m.id = b then rest else olderThan b rest

/-- An API serving a channel whose messages are listed newest first: a request is
answered with the next at most `limit` messages older than `before`, the newest ones
when `before` is absent. -/
def channelApi (channel : List Message) (_p : Nat) (r : Request) :
    Except String (List Message) :=
  match r.before with
  | none => Except.ok (channel.take r.limit)
  | some b => Except.ok ((olderThan b channel).take r.limit)

end Discord

/-! ## GitHub (`src/data/github.js`) -/

namespace GitHub

/-- The `author` or `committer` object inside `commit`. -/
structure Person where
  name : Option String := none
  email : Option String := none
  date : Option String := none
  deriving DecidableEq, Repr

/-- The `commit` object of a listed commit. -/
structure CommitInfo where
  message : Option String := none
  author : Option Person := none
  committer : Option Person := none
  deriving DecidableEq, Repr

/-- The GitHub account attached to a commit. -/
structure User where
  login : Option String := none
  deriving DecidableEq, Repr

/-- An element of the commit listing. -/
structure Commit where
  sha : String
  commit : Option CommitInfo := none
  author : Option User := none
  committer : Option User := none
  html_url : Option String := none
  deriving DecidableEq, Repr

/-- The answer of the commit detail endpoint, as far as it is read. -/
structure Detail where
  /-- The `files` array, absent when it is not an array; each entry is a `filename`. -/
  files : Option (List (Option String)) := none
  additions : Option Nat := none
  deletions : Option Nat := none
  deriving DecidableEq, Repr

/-- The document written for a commit. -/
structure Doc where
  userId : String
  owner : String
  repo : String
  sha : String
  commitMessage : String
  authorName : String
  authorEmail : String
  authorDate : Option JsDate
  committerName : String
  committerEmail : String
  committerDate : Option JsDate
  htmlUrl : Option String
  filesChanged : List (Option String)
  additions : Nat
  deletions : Nat
  fetchedAt : Nat
  deriving DecidableEq, Repr

/-- The natural key `{ userId, owner, repo, sha }`. -/
abbrev Key := String × String × String × String

/-- The query of the commit listing (`since` and the token are fixed for a run). -/
structure ListRequest where
  owner : String
  repo : String
  perPage : Nat
  page : Nat
  deriving DecidableEq, Repr

/-- A network request of a GitHub run. -/
inductive Request where
  | list (r : ListRequest)
  | detail (sha : String)
  deriving DecidableEq, Repr

/-- The collaborators of a GitHub run. -/
structure Env where
  /-- The variable `process.env.GITHUB_TOKEN`. -/
  token : Option String
  /-- The answer of the commit listing endpoint. -/
  api : ListRequest → Except String (List Commit)
  /-- The answer of the commit detail endpoint for the i-th commit of the run. -/
  detail : Nat → String → Except String Detail
  /-- Whether the store rejects the `updateOne` of the i-th commit of the run. -/
  rejects : Nat → Bool
  /-- The clock read by `new Date()` while the i-th commit is processed. -/
  now : Nat → Nat

/-- The options `{ userId, owner, repo, sinceDays = 30, limit = 100, includeFiles = false, token }`. -/
structure Options where
  userId : Option String
  owner : Option String
  repo : Option String
  sinceDays : Nat := 30
  limit : Nat := 100
  includeFiles : Bool := false
  token : Option String := none

/-- The state of a GitHub run. -/
abbrev GRun := Run Request Key Doc

/-- The function `listCommits({ owner, repo, since, perPage, page, token })`. -/
def listCommits (env : Env) (owner repo : String) (perPage page : Nat) :
    Except String (List Commit) :=
  env.api { owner := owner, repo := repo, perPage := min perPage 100, page := page }

/-- The function `getCommit({ owner, repo, sha, token })` called for the i-th commit. -/
def getCommit (env : Env) (i : Nat) (sha : String) : Except String Detail :=
  env.detail i sha

/-- The `authorDate` and `committerDate` expressions. -/
def dateOf (p : Option Person) : Option JsDate :=
  let d := p.bind (fun x => x.date)
  if truthy d then some (JsDate.parse (d.getD "")) else none

/-- The object literal `doc` built for a commit. -/
def buildDoc (userId owner repo : String) (now : Nat) (c : Commit)
    (filesChanged : List (Option String)) (additions deletions : Nat) : Doc :=
  { userId := userId
    owner := owner
    repo := repo
    sha := c.sha
    commitMessage := orStr (c.commit.bind (fun x => x.message)) ""
    authorName :=
      orStr ((c.commit.bind (fun x => x.author)).bind (fun x => x.name))
        (orStr (c.author.bind (fun x => x.login)) "")
    authorEmail := orStr ((c.commit.bind (fun x => x.author)).bind (fun x => x.email)) ""
    authorDate := dateOf (c.commit.bind (fun x => x.author))
    committerName :=
      orStr ((c.commit.bind (fun x => x.committer)).bind (fun x => x.name))
        (orStr (c.committer.bind (fun x => x.login)) "")
    committerEmail := orStr ((c.commit.bind (fun x => x.committer)).bind (fun x => x.email)) ""
    committerDate := dateOf (c.commit.bind (fun x => x.committer))
    htmlUrl := c.html_url
    filesChanged := filesChanged
    additions := additions
    deletions := deletions
    fetchedAt := now }

/-- The enrichment `filesChanged, additions, deletions` read from a detail answer. -/
def enrichment (d : Detail) : List (Option String) × Nat × Nat :=
  match d.files with
  | some files => (files, orNat d.additions 0, orNat d.deletions 0)
  | none => ([], 0, 0)

/-- The body of `for (const c of commits)` after the limit check: count the commit,
fetch its detail when asked to, build and upsert its document, count the success or
the caught failure. -/
def processCommit (env : Env) (userId owner repo : String) (includeFiles : Bool)
    (st : GRun) (c : Commit) : GRun :=
  let i := st.fetched
  let st1 := { st with fetched := i + 1 }
  let st2 :=
    if includeFiles then { st1 with log := st1.log ++ [Event.request (Request.detail c.sha)] }
    else st1
  let detail : Except String (List (Option String) × Nat × Nat) :=
    if includeFiles then (getCommit env i c.sha).map enrichment else Except.ok ([], 0, 0)
  match detail with
  | Except.error _ => { st2 with failed := st2.failed + 1 }
  | Except.ok (files, additions, deletions) =>
    let doc := buildDoc userId owner repo (env.now i) c files additions deletions
    let st3 := { st2 with log := st2.log ++ [Event.write (userId, owner, repo, c.sha)] }
    if env.rejects i then { st3 with failed := st3.failed + 1 }
    else
      { st3 with
        store := upsert (userId, owner, repo, c.sha) doc st3.store
        success := st3.success + 1 }

/-- The loop `for (const c of commits)` with its `if (fetched >= limit) break`. -/
def processPage (env : Env) (userId owner repo : String) (includeFiles : Bool) (limit : Nat) :
    List Commit → GRun → GRun
  | [], st => st
  | c :: rest, st =>
    if st.fetched ≥ limit then st
    else
      processPage env userId owner repo includeFiles limit rest
        (processCommit env userId owner repo includeFiles st c)

/-- The loop `while (fetched < limit)`.  The first argument bounds the number of
iterations; `none` means that the bound was too small. -/
def commitLoop (env : Env) (userId owner repo : String) (includeFiles : Bool) (limit : Nat) :
    Nat → Nat → GRun → Option GRun
  | 0, _, st => if st.fetched < limit then none else some st
  | fuel + 1, page, st =>
    if st.fetched < limit then
      let toGet := min 100 (limit - st.fetched)
      let req : ListRequest :=
        { owner := owner, repo := repo, perPage := min toGet 100, page := page }
      let st1 := { st with log := st.log ++ [Event.request (Request.list req)] }
      match listCommits env owner repo toGet page with
      | Except.error e => some { st1 with thrown := some e }
      | Except.ok commits =>
        if commits.isEmpty then some st1
        else
          commitLoop env userId owner repo includeFiles limit fuel (page + 1)
            (processPage env userId owner repo includeFiles limit commits st1)
    else some st

/-- The parameter `token = process.env.GITHUB_TOKEN`: the option, or by default the
environment variable. -/
def tokenOf (env : Env) (o : Options) : Option String :=
  match o.token with
  | some t => some t
  | none => env.token

/-- The function `fetchAndStoreCommits`, with a bound on the iterations of its loop. -/
def fetchAndStoreCommitsFuel (fuel : Nat) (env : Env) (o : Options) (store : Store Key Doc) :
    Option (Outcome Request Key Doc) :=
  if !truthy o.userId then some (rejectCall "userId required" store)
  else if !truthy o.owner || !truthy o.repo then some (rejectCall "owner and repo required" store)
  else if !truthy (tokenOf env o) then some (rejectCall "GITHUB_TOKEN missing" store)
  else
    (commitLoop env (o.userId.getD "") (o.owner.getD "") (o.repo.getD "") o.includeFiles
      o.limit fuel 1 { store := store }).map Run.finish

/-- The function `fetchAndStoreCommits`: every iteration of the loop that does not end
the run counts at least one commit, so `limit` iterations are enough. -/
def fetchAndStoreCommits (env : Env) (o : Options) (store : Store Key Doc) :
    Option (Outcome Request Key Doc) :=
  fetchAndStoreCommitsFuel o.limit env o store

/-- An API serving a repository by page number: the request with `page = p` and
`per_page = s` is answered with the commits at positions `(p-1)*s+1` to `p*s` of the
listing, fewer or none past its end. -/
def repoApi (listing : List Commit) (r : ListRequest) : Except String (List Commit) :=
  Except.ok ((listing.drop ((r.page - 1) * r.perPage)).take r.perPage)

end GitHub

/-! ## Gmail (`src/data/gmail.js`) -/

namespace Gmail

/-- An element of the `headers` array of a payload. -/
structure Header where
  name : String
  value : Option String
  deriving DecidableEq, Repr

/-- A part of a message payload; the payload itself is the root part.  The field
`bodyData` is `part.body?.data`, and an absent `parts` array is the empty list. -/
inductive Part where
  | mk (mimeType : Option String) (headers : List Header) (bodyData : Option String)
      (parts : List Part)

/-- The headers of a part. -/
def Part.headers : Part → List Header
  | Part.mk _ hs _ _ => hs

/-- The answer of `users.messages.get` with `format: 'full'`. -/
structure Message where
  id : String
  threadId : Option String := none
  snippet : Option String := none
  internalDate : Option String := none
  labelIds : Option (List String) := none
  payload : Option Part := none

/-- The fields written for a message (`sender` is the field `from`, `to_` is `to`). -/
structure Doc where
  threadId : Option String
  subject : String
  sender : String
  to_ : List String
  cc : List String
  snippet : Option String
  bodyText : String
  bodyHtml : String
  labels : List String
  date : JsDate
  fetchedAt : Nat
  deriving DecidableEq, Repr

/-- The natural key `{ userId, gmailId }`. -/
abbrev Key := String × String

/-- A network request of a Gmail run. -/
inductive Request where
  | list (q : String) (pageToken : Option String)
  | get (id : String)
  deriving DecidableEq, Repr

/-- The behaviour of `users.messages.list` over the successive calls of one listing:
the call fails, or it answers with message ids and possibly a `nextPageToken`, and
`next` is the behaviour for the call that carries this token. -/
inductive Listing where
  | fail (message : String)
  | page (ids : List String) (nextPageToken : Option String) (next : Listing)

/-- The collaborators of a Gmail run. -/
structure Env where
  /-- The variable `process.env.GMAIL_REFRESH_TOKEN`. -/
  refreshToken : Option String
  /-- The number `Number(process.env.DEFAULT_EMAIL_WINDOW_DAYS)`, absent when `NaN`. -/
  defaultWindowDays : Option Nat
  /-- The behaviour of the listing endpoint for a query. -/
  listing : String → Listing
  /-- The answer of `users.messages.get` for the i-th id of the run. -/
  get : Nat → String → Except String Message
  /-- The decoding `Buffer.from(s, 'base64').toString('utf8')`. -/
  base64 : String → String
  /-- Whether the store rejects the `updateOne` of the i-th message of the run. -/
  rejects : Nat → Bool
  /-- The clock read by `new Date()` while the i-th message is processed. -/
  now : Nat → Nat

/-- The options `{ userId = "default", days, refreshToken, limit, overrideQuery }`;
`limit` is absent when it is not a number. -/
structure Options where
  userId : Option String := none
  days : Option Nat := none
  refreshToken : Option String := none
  limit : Option Int := none
  overrideQuery : Option String := none

/-- The state of a Gmail run. -/
abbrev MRun := Run Request Key Doc

/-- The function `buildQuery(days)`. -/
def buildQuery (env : Env) (days : Option Nat) : String :=
  "newer_than:" ++ toString (orNat days (orNat env.defaultWindowDays 30)) ++ "d"

/-- The function `header(payload, name)`. -/
def header (payload : Option Part) (name : String) : Option String :=
  match payload with
  | none => none
  | some p =>
    match p.headers.find? (fun h => lower h.name == lower name) with
    | some h => if truthy h.value then h.value else none
    | none => none

/-- The function `decodeBase64Url(data)`. -/
def decodeBase64Url (base64 : String → String) (data : Option String) : String :=
  if !truthy data then ""
  else
    base64 (String.mk ((data.getD "").data.map
      (fun c => if c = '-' then '+' else if c = '_' then '/' else c)))

mutual
/-- The inner function `walk(part)` of `extractBodies`, threading the two accumulators
`bodyText` and `bodyHtml`. -/
def walk (base64 : String → String) : Part → String × String → String × String
  | Part.mk mimeType _ bodyData parts, (bodyText, bodyHtml) =>
    walkAll base64 parts
      (if truthy bodyData && truthy mimeType then
        (if mimeType = some "text/plain" then bodyText ++ decodeBase64Url base64 bodyData
          else bodyText,
         if mimeType = some "text/html" then bodyHtml ++ decodeBase64Url base64 bodyData
          else bodyHtml)
      else (bodyText, bodyHtml))
/-- The call `part.parts.forEach(walk)`. -/
def walkAll (base64 : String → String) : List Part → String × String → String × String
  | [], acc => acc
  | p :: ps, acc => walkAll base64 ps (walk base64 p acc)
end

/-- The function `extractBodies(payload)`, returning `(bodyText, bodyHtml)`. -/
def extractBodies (base64 : String → String) (payload : Option Part) : String × String :=
  let walked :=
    match payload with
    | none => ("", "")
    | some p => walk base64 p ("", "")
  if walked.1 = "" ∧ walked.2 ≠ "" then (htmlToText walked.2, walked.2) else walked

/-- The expression `header(payload, name)?.split(',').map(s => s.trim()) || []`. -/
def addressList (payload : Option Part) (name : String) : List String :=
  match header payload name with
  | some v => (splitComma v.data).map (fun s => String.mk (jsTrim s))
  | none => []

/-- The `$set` object built by `upsertEmailDoc(userId, msg)`. -/
def buildDoc (base64 : String → String) (now : Nat) (msg : Message) : Doc :=
  let dateHeader := header msg.payload "Date"
  let bodies := extractBodies base64 msg.payload
  { threadId := msg.threadId
    subject := orStr (header msg.payload "Subject") ""
    sender := orStr (header msg.payload "From") ""
    to_ := addressList msg.payload "To"
    cc := addressList msg.payload "Cc"
    snippet := msg.snippet
    bodyText := bodies.1
    bodyHtml := bodies.2
    labels := msg.labelIds.getD []
    date :=
      if truthy dateHeader then JsDate.parse (dateHeader.getD "")
      else if truthy msg.internalDate then JsDate.ofNumeric (msg.internalDate.getD "")
      else JsDate.ms now
    fetchedAt := now }

/-- The function `listMessageIds(gmail, q)`: the do-while loop over the pages of the
listing, with the token sent, the ids collected and the requests logged so far. -/
def listMessageIds (q : String) :
    Listing → Option String → List String → List (Event Request Key) →
      Except String (List String) × List (Event Request Key)
  | Listing.fail e, pageToken, _, log =>
    (Except.error e, log ++ [Event.request (Request.list q pageToken)])
  | Listing.page ms nextPageToken next, pageToken, ids, log =>
    if truthy nextPageToken then
      listMessageIds q next nextPageToken (ids ++ ms)
        (log ++ [Event.request (Request.list q pageToken)])
    else (Except.ok (ids ++ ms), log ++ [Event.request (Request.list q pageToken)])

/-- The call `ids.slice(0, limit)` for an integer limit. -/
def sliceTo (ids : List String) (limit : Int) : List String :=
  if limit < 0 then ids.take (ids.length - limit.natAbs) else ids.take limit.toNat

/-- The body of `for (const id of slice)` for the i-th id: get the message, upsert
its document, count the success or the caught failure. -/
def processId (env : Env) (userId : String) (i : Nat) (st : MRun) (id : String) : MRun :=
  let st1 := { st with log := st.log ++ [Event.request (Request.get id)] }
  match env.get i id with
  | Except.error _ => { st1 with failed := st1.failed + 1 }
  | Except.ok msg =>
    let st2 := { st1 with log := st1.log ++ [Event.write (userId, msg.id)] }
    if env.rejects i then { st2 with failed := st2.failed + 1 }
    else
      { st2 with
        store := upsert (userId, msg.id) (buildDoc env.base64 (env.now i) msg) st2.store
        success := st2.success + 1 }

/-- The loop `for (const id of slice)`, from position `i` on. -/
def processIds (env : Env) (userId : String) : Nat → List String → MRun → MRun
  | _, [], st => st
  | i, id :: rest, st => processIds env userId (i + 1) rest (processId env userId i st id)

/-- The constant `token = refreshToken || process.env.GMAIL_REFRESH_TOKEN`. -/
def tokenOf (env : Env) (o : Options) : Option String :=
  if truthy o.refreshToken then o.refreshToken else env.refreshToken

/-- The constant `q = overrideQuery || buildQuery(days)`. -/
def queryOf (env : Env) (o : Options) : String :=
  if truthy o.overrideQuery then o.overrideQuery.getD "" else buildQuery env o.days

/-- The constant `slice = typeof limit === 'number' ? ids.slice(0, limit) : ids`. -/
def sliceOf (o : Options) (ids : List String) : List String :=
  match o.limit with
  | some n => sliceTo ids n
  | none => ids

/-- The function `fetchAndStoreGmail`. -/
def fetchAndStoreGmail (env : Env) (o : Options) (store : Store Key Doc) :
    Outcome Request Key Doc :=
  if !truthy (tokenOf env o) then rejectCall "GMAIL_REFRESH_TOKEN missing" store
  else
    let q := queryOf env o
    match listMessageIds q (env.listing q) none [] [] with
    | (Except.error e, log) => { result := Result.threw e, store := store, log := log }
    | (Except.ok ids, log) =>
      let slice := sliceOf o ids
      let st := processIds env (o.userId.getD "default") 0 slice { store := store, log := log }
      { result := Result.returned ⟨slice.length, st.success, st.failed⟩
        store := st.store
        log := st.log }

end Gmail

/-! ## Failure sets -/

/-- The number of failing items of a list whose first item has position `i`, for a
predicate telling whether the item at a position fails. -/
def failures {α : Type} (fails : Nat → α → Bool) : Nat → List α → Nat
  | _, [] => 0
  | i, x :: xs => (if fails i x then 1 else 0) + failures fails (i + 1) xs

/-- The i-th message of a Discord run fails: building its document throws or the store
rejects the upsert. -/
def Discord.itemFails (env : Discord.Env) (userId channelId : String) (i : Nat)
    (m : Discord.Message) : Bool :=
  (Discord.buildDoc userId channelId (env.now i) m).isNone || env.rejects i

/-- The i-th commit of a GitHub run fails: the detail request (when made) fails or the
store rejects the upsert. -/
def GitHub.itemFails (env : GitHub.Env) (includeFiles : Bool) (i : Nat)
    (c : GitHub.Commit) : Bool :=
  (includeFiles && !(GitHub.getCommit env i c.sha).toBool) || env.rejects i

/-- The i-th id of a Gmail run fails: getting the message fails or the store rejects
the upsert. -/
def Gmail.itemFails (env : Gmail.Env) (i : Nat) (id : String) : Bool :=
  !(env.get i id).toBool || env.rejects i

/-! ## Sample inputs -/

/-- Ten messages with the ids 20 down to 11, newest first. -/
def Discord.tenMessages : List Discord.Message :=
  (List.range 10).map (fun i => { id := 20 - i })

/-- A channel of ten messages, a store that rejects the fourth upsert of a run. -/
def Discord.tenEnv : Discord.Env :=
  { token := some "bot-token"
    api := Discord.channelApi Discord.tenMessages
    rejects := fun i => i == 3
    now := fun i => 1700000000000 + i }

/-- The options of the sample Discord run. -/
def Discord.demoOptions : Discord.Options :=
  { userId := some "demo", channelId := some "42", pages := 2, perPage := 100 }

/-- A mailbox whose listing answers the query with no message at all. -/
def Gmail.emptyEnv : Gmail.Env :=
  { refreshToken := some "refresh-token"
    defaultWindowDays := none
    listing := fun _ => Gmail.Listing.page [] none (Gmail.Listing.fail "unused")
    get := fun _ _ => Except.error "not found"
    base64 := fun s => s
    rejects := fun _ => false
    now := fun i => 1700000000000 + i }

/-- The commit-listing requests of a GitHub log, in order. -/
def GitHub.listRequestsOf (log : List (Event GitHub.Request GitHub.Key)) :
    List GitHub.ListRequest :=
  log.filterMap fun e =>
    match e with
    | Event.request (GitHub.Request.list r) => some r
    | _ => none

/-- A store that accepts everything, and no commit detail. -/
def GitHub.repoEnv (listing : List GitHub.Commit) : GitHub.Env :=
  { token := some "gh-token"
    api := GitHub.repoApi listing
    detail := fun _ _ => Except.error "not requested"
    rejects := fun _ => false
    now := fun i => 1700000000000 + i }

/-- Ten commits `c0` to `c9`. -/
def GitHub.tenCommits : List GitHub.Commit :=
  (List.range 10).map (fun i => { sha := "c" ++ toString i })

/-- The options of the sample GitHub runs, up to the limit. -/
def GitHub.demoOptions (limit : Nat) : GitHub.Options :=
  { userId := some "demo", owner := some "octocat", repo := some "hello", limit := limit }

/-- A mailbox listing the ids `m1`, `m2`, `m3` on two pages; the message `m2` cannot
be fetched. -/
def Gmail.threeEnv : Gmail.Env :=
  { refreshToken := some "refresh-token"
    defaultWindowDays := none
    listing := fun _ =>
      Gmail.Listing.page ["m1", "m2"] (some "next")
        (Gmail.Listing.page ["m3"] none (Gmail.Listing.fail "unused"))
    get := fun _ id =>
      if id = "m2" then Except.error "404"
      else Except.ok { id := id, internalDate := some "1700000000000" }
    base64 := fun s => s
    rejects := fun _ => false
    now := fun i => 1700000000000 + i }

/-- Three commits `c0`, `c1`, `c2`. -/
def GitHub.threeCommits : List GitHub.Commit :=
  (List.range 3).map (fun i => { sha := "c" ++ toString i })

/-- Thirty commits `c0` to `c29`. -/
def GitHub.thirtyCommits : List GitHub.Commit :=
  (List.range 30).map (fun i => { sha := "c" ++ toString i })

/-- A channel whose first page holds the ten sample messages and whose later pages
cannot be fetched. -/
def Discord.failingEnv : Discord.Env :=
  { token := some "bot-token"
    api := fun p r =>
      if p = 0 then Discord.channelApi Discord.tenMessages p r
      else Except.error "Discord API 500: internal error"
    rejects := fun _ => false
    now := fun i => 1700000000000 + i }

/-- A channel of 120 messages with the ids 1120 down to 1001, newest first. -/
def Discord.channel120 : List Discord.Message :=
  (List.range 120).map (fun i => { id := 1120 - i })

/-- The channel of 120 messages behind the API, a store that accepts everything. -/
def Discord.env120 : Discord.Env :=
  { token := some "bot-token"
    api := Discord.channelApi Discord.channel120
    rejects := fun _ => false
    now := fun i => 1700000000000 + i }

/-! ## Body extraction, as the specification words it -/

namespace Gmail

mutual
/-- The concatenation, in depth-first pre-order, of the decoded body data of all parts
at any depth whose `mimeType` is `mime`. -/
def collect (base64 : String → String) (mime : String) : Part → String
  | Part.mk mimeType _ bodyData parts =>
    (if mimeType = some mime then decodeBase64Url base64 bodyData else "")
      ++ collectAll base64 mime parts
/-- The same concatenation over a list of sibling parts. -/
def collectAll (base64 : String → String) (mime : String) : List Part → String
  | [] => ""
  | p :: ps => collect base64 mime p ++ collectAll base64 mime ps
end

mutual
/-- Whether a payload contains, at any depth, a part whose `mimeType` is `mime`. -/
def hasPart (mime : String) : Part → Bool
  | Part.mk mimeType _ _ parts => mimeType == some mime || hasPartAll mime parts
/-- Whether one of the sibling parts contains such a part. -/
def hasPartAll (mime : String) : List Part → Bool
  | [] => false
  | p :: ps => hasPart mime p || hasPartAll mime ps
end

/-- A `multipart/alternative` payload whose plain-text part has an empty body and whose
HTML part reads `<b>Hi</b> there` (base64 decoding is taken as the identity here). -/
def htmlOnlyMail : Part :=
  Part.mk (some "multipart/alternative") [] none
    [Part.mk (some "text/plain") [] none [],
     Part.mk (some "text/html") [] (some "<b>Hi</b> there") []]

end Gmail

/-! ## Repeated runs -/

/-- A sequence of accepted upserts applied to a collection. -/
def upsertAll {K D : Type} [DecidableEq K] (ups : List (K × D)) (s : Store K D) : Store K D :=
  ups.foldl (fun acc kd => upsert kd.1 kd.2 acc) s

/-- Two sequences of upserts write the same keys in the same order, with records
related by `E`. -/
def SameWrites {K D : Type} (E : D → D → Prop) (ups1 ups2 : List (K × D)) : Prop :=
  List.Forall₂ (fun a b => a.1 = b.1 ∧ E a.2 b.2) ups1 ups2

/-- Two Discord documents agree on every field but `fetchedAt`. -/
def Discord.sameButFetchedAt (d1 d2 : Discord.Doc) : Prop :=
  { d1 with fetchedAt := 0 } = { d2 with fetchedAt := 0 }

/-- Two GitHub documents agree on every field but `fetchedAt`. -/
def GitHub.sameButFetchedAt (d1 d2 : GitHub.Doc) : Prop :=
  { d1 with fetchedAt := 0 } = { d2 with fetchedAt := 0 }

/-- Two Gmail documents agree on every field but `fetchedAt`. -/
def Gmail.sameButFetchedAt (d1 d2 : Gmail.Doc) : Prop :=
  { d1 with fetchedAt := 0 } = { d2 with fetchedAt := 0 }

/-- A mailbox with the single message `m1`, which has neither a `Date` header nor an
`internalDate`, read at the time `t`. -/
def Gmail.undatedEnv (t : Nat) : Gmail.Env :=
  { refreshToken := some "refresh-token"
    defaultWindowDays := none
    listing := fun _ => Gmail.Listing.page ["m1"] none (Gmail.Listing.fail "unused")
    get := fun _ id => Except.ok { id := id }
    base64 := fun s => s
    rejects := fun _ => false
    now := fun _ => t }

/-! ## Facts about the store -/

theorem lookup_upsert {K D : Type} [DecidableEq K] (k k2 : K) (d : D) (s : Store K D) :
    lookup k2 (upsert k d s) = if k = k2 then some d else lookup k2 s := by
  induction s with
  | nil => simp [upsert, lookup]
  | cons row rest ih =>
    obtain ⟨k0, d0⟩ := row
    by_cases h : k0 = k
    · subst h
      by_cases h2 : k0 = k2 <;> simp [upsert, lookup, h2]
    · by_cases h2 : k0 = k2
      · subst h2
        have h3 : ¬ k = k0 := fun e => h e.symm
        simp [upsert, lookup, h, h3]
      · simp [upsert, lookup, h, h2, ih]

theorem mem_keys_upsert {K D : Type} [DecidableEq K] (k k2 : K) (d : D) (s : Store K D) :
    k2 ∈ keys (upsert k d s) ↔ k2 = k ∨ k2 ∈ keys s := by
  induction s with
  | nil => simp [upsert, keys]
  | cons row rest ih =>
    obtain ⟨k0, d0⟩ := row
    by_cases h : k0 = k
    · subst h
      simp [upsert, keys]
    · simp only [keys] at ih
      simp [upsert, keys, h, ih]
      tauto

theorem keys_upsert_of_mem {K D : Type} [DecidableEq K] (k : K) (d : D) (s : Store K D)
    (h : k ∈ keys s) : keys (upsert k d s) = keys s := by
  induction s with
  | nil => simp [keys] at h
  | cons row rest ih =>
    obtain ⟨k0, d0⟩ := row
    by_cases h0 : k0 = k
    · subst h0
      simp [upsert, keys]
    · have hr : k ∈ keys rest := by
        simp only [keys, List.map_cons, List.mem_cons] at h
        rcases h with h | h
        · exact absurd h.symm h0
        · exact h
      have := ih hr
      simp only [keys] at this
      simp [upsert, keys, h0, this]

theorem nodup_keys_upsert {K D : Type} [DecidableEq K] (k : K) (d : D) (s : Store K D)
    (h : (keys s).Nodup) : (keys (upsert k d s)).Nodup := by
  induction s with
  | nil => simp [upsert, keys]
  | cons row rest ih =>
    obtain ⟨k0, d0⟩ := row
    by_cases h0 : k0 = k
    · subst h0
      simpa [upsert, keys] using h
    · simp only [keys, List.map_cons, List.nodup_cons] at h
      have hm := mem_keys_upsert k k0 d rest
      have hi := ih h.2
      simp only [keys] at hm hi
      simp only [upsert, h0, if_false, keys, List.map_cons, List.nodup_cons]
      refine ⟨?_, hi⟩
      rw [hm]
      rintro (e | e)
      · exact h0 e
      · exact h.1 e

theorem lookup_isSome_iff {K D : Type} [DecidableEq K] (k : K) (s : Store K D) :
    (lookup k s).isSome ↔ k ∈ keys s := by
  induction s with
  | nil => simp [lookup, keys]
  | cons row rest ih =>
    obtain ⟨k0, d0⟩ := row
    by_cases h0 : k0 = k
    · subst h0
      simp [lookup, keys]
    · have h1 : ¬ k = k0 := fun e => h0 e.symm
      simp only [keys] at ih
      simp [lookup, keys, h0, h1, ih]

/-! ## Facts about the Discord run -/

namespace Discord

theorem processMessage_fetched (env : Env) (u c : String) (st : DRun) (m : Message) :
    (processMessage env u c st m).fetched = st.fetched + 1 := by
  cases hb : buildDoc u c (env.now st.fetched) m <;> cases hr : env.rejects st.fetched <;>
    simp [processMessage, hb, hr]

theorem processMessage_thrown (env : Env) (u c : String) (st : DRun) (m : Message) :
    (processMessage env u c st m).thrown = st.thrown := by
  cases hb : buildDoc u c (env.now st.fetched) m <;> cases hr : env.rejects st.fetched <;>
    simp [processMessage, hb, hr]

theorem processMessage_counts (env : Env) (u c : String) (st : DRun) (m : Message) :
    (processMessage env u c st m).failed
        = st.failed + (if itemFails env u c st.fetched m then 1 else 0) ∧
      (processMessage env u c st m).success
        = st.success + (if itemFails env u c st.fetched m then 0 else 1) := by
  cases hb : buildDoc u c (env.now st.fetched) m <;> cases hr : env.rejects st.fetched <;>
    simp [processMessage, itemFails, hb, hr]

theorem foldl_fetched (env : Env) (u c : String) (msgs : List Message) (st : DRun) :
    (msgs.foldl (processMessage env u c) st).fetched = st.fetched + msgs.length := by
  induction msgs generalizing st with
  | nil => simp
  | cons m rest ih =>
    simp only [List.foldl_cons, ih, processMessage_fetched, List.length_cons]
    omega

theorem foldl_thrown (env : Env) (u c : String) (msgs : List Message) (st : DRun) :
    (msgs.foldl (processMessage env u c) st).thrown = st.thrown := by
  induction msgs generalizing st with
  | nil => simp
  | cons m rest ih => simp only [List.foldl_cons, ih, processMessage_thrown]

theorem foldl_counts (env : Env) (u c : String) (msgs : List Message) (st : DRun) :
    (msgs.foldl (processMessage env u c) st).failed
        = st.failed + failures (itemFails env u c) st.fetched msgs ∧
      (msgs.foldl (processMessage env u c) st).success + failures (itemFails env u c) st.fetched msgs
        = st.success + msgs.length := by
  induction msgs generalizing st with
  | nil => simp [failures]
  | cons m rest ih =>
    have h1 := ih (processMessage env u c st m)
    have h2 := processMessage_counts env u c st m
    simp only [List.foldl_cons, failures, List.length_cons, processMessage_fetched] at h1 ⊢
    split_ifs at h2 ⊢ <;> omega

theorem failures_le {α : Type} (fails : Nat → α → Bool) (i : Nat) (xs : List α) :
    failures fails i xs ≤ xs.length := by
  induction xs generalizing i with
  | nil => simp [failures]
  | cons x rest ih =>
    have := ih (i + 1)
    simp only [failures, List.length_cons]
    split_ifs <;> omega

/-- The invariant `fetched = success + failed` of the loop over the pages. -/
theorem pageLoop_balanced (env : Env) (u c : String) (perPage : Nat) (n p : Nat)
    (before : Option Nat) (st : DRun) (h : st.fetched = st.success + st.failed) :
    (pageLoop env u c perPage n p before st).fetched
      = (pageLoop env u c perPage n p before st).success
        + (pageLoop env u c perPage n p before st).failed := by
  induction n generalizing p before st with
  | zero => simpa [pageLoop] using h
  | succ n ih =>
    unfold pageLoop
    dsimp only
    split
    · exact h
    · next msgs _ =>
      split
      · exact h
      · apply ih
        have h1 := foldl_counts env u c msgs { st with log := st.log ++ [Event.request (p, { channelId := c, limit := min perPage 100, before := before })] }
        have h2 := foldl_fetched env u c msgs { st with log := st.log ++ [Event.request (p, { channelId := c, limit := min perPage 100, before := before })] }
        dsimp only at h1 h2
        omega

end Discord

/-! ## Facts about the GitHub run -/

namespace GitHub

theorem processCommit_fetched (env : Env) (u o r : String) (inc : Bool) (st : GRun)
    (c : Commit) : (processCommit env u o r inc st c).fetched = st.fetched + 1 := by
  cases inc <;> cases hd : env.detail st.fetched c.sha <;> cases hr : env.rejects st.fetched <;>
    simp [processCommit, getCommit, Except.map, hd, hr]

theorem processCommit_thrown (env : Env) (u o r : String) (inc : Bool) (st : GRun)
    (c : Commit) : (processCommit env u o r inc st c).thrown = st.thrown := by
  cases inc <;> cases hd : env.detail st.fetched c.sha <;> cases hr : env.rejects st.fetched <;>
    simp [processCommit, getCommit, Except.map, hd, hr]

theorem processCommit_counts (env : Env) (u o r : String) (inc : Bool) (st : GRun)
    (c : Commit) :
    (processCommit env u o r inc st c).failed
        = st.failed + (if itemFails env inc st.fetched c then 1 else 0) ∧
      (processCommit env u o r inc st c).success
        = st.success + (if itemFails env inc st.fetched c then 0 else 1) := by
  cases inc <;> cases hd : env.detail st.fetched c.sha <;> cases hr : env.rejects st.fetched <;>
    simp [processCommit, getCommit, itemFails, Except.map, Except.toBool, hd, hr]

/-- The loop over one page keeps `fetched = success + failed` and `fetched ≤ limit`,
never lowers `fetched`, and keeps the pending error. -/
theorem processPage_inv (env : Env) (u o r : String) (inc : Bool) (limit : Nat)
    (commits : List Commit) (st : GRun) :
    ((st.fetched = st.success + st.failed →
        (processPage env u o r inc limit commits st).fetched
          = (processPage env u o r inc limit commits st).success
            + (processPage env u o r inc limit commits st).failed) ∧
      (st.fetched ≤ limit → (processPage env u o r inc limit commits st).fetched ≤ limit)) ∧
      st.fetched ≤ (processPage env u o r inc limit commits st).fetched ∧
      (processPage env u o r inc limit commits st).thrown = st.thrown := by
  induction commits generalizing st with
  | nil => simp [processPage]
  | cons c rest ih =>
    unfold processPage
    split
    · simp
    · next hlt =>
      have h1 := ih (processCommit env u o r inc st c)
      have h2 := processCommit_counts env u o r inc st c
      rw [processCommit_fetched, processCommit_thrown] at h1
      refine ⟨⟨fun hb => h1.1.1 ?_, fun _ => h1.1.2 (by omega)⟩, by omega, h1.2.2⟩
      split_ifs at h2 <;> omega

/-- A non-empty page processed below the limit counts at least one commit. -/
theorem processPage_progress (env : Env) (u o r : String) (inc : Bool) (limit : Nat)
    (commits : List Commit) (st : GRun) (hne : commits ≠ []) (hlt : st.fetched < limit) :
    st.fetched < (processPage env u o r inc limit commits st).fetched := by
  cases commits with
  | nil => exact absurd rfl hne
  | cons c rest =>
    unfold processPage
    rw [if_neg (by omega)]
    have := (processPage_inv env u o r inc limit rest (processCommit env u o r inc st c)).2.1
    rw [processCommit_fetched] at this
    omega

/-- The loop over the pages ends within `limit - fetched` iterations, and its final
state satisfies `fetched = success + failed` and `fetched ≤ limit`. -/
theorem commitLoop_inv (env : Env) (u o r : String) (inc : Bool) (limit : Nat)
    (fuel page : Nat) (st : GRun) (hfuel : limit ≤ st.fetched + fuel) :
    ∃ fin, commitLoop env u o r inc limit fuel page st = some fin ∧
      (st.fetched = st.success + st.failed → fin.fetched = fin.success + fin.failed) ∧
      (st.fetched ≤ limit → fin.fetched ≤ limit) := by
  induction fuel generalizing page st with
  | zero =>
    refine ⟨st, ?_, fun h => h, fun h => h⟩
    simp only [commitLoop]
    rw [if_neg (by omega)]
  | succ fuel ih =>
    unfold commitLoop
    split
    · next hlt =>
      dsimp only
      split
      · exact ⟨_, rfl, fun h => h, fun h => h⟩
      · next commits _ =>
        split
        · exact ⟨_, rfl, fun h => h, fun h => h⟩
        · next hne =>
          have hne2 : commits ≠ [] := by
            intro e
            simp [e] at hne
          have hp := processPage_progress env u o r inc limit commits
            { st with log := st.log ++ [Event.request (Request.list { owner := o, repo := r, perPage := min (min 100 (limit - st.fetched)) 100, page := page })] }
            hne2 hlt
          have hi := processPage_inv env u o r inc limit commits
            { st with log := st.log ++ [Event.request (Request.list { owner := o, repo := r, perPage := min (min 100 (limit - st.fetched)) 100, page := page })] }
          obtain ⟨fin, hfin, hb, hl⟩ := ih (page + 1)
            (processPage env u o r inc limit commits
              { st with log := st.log ++ [Event.request (Request.list { owner := o, repo := r, perPage := min (min 100 (limit - st.fetched)) 100, page := page })] })
            (by dsimp only at hp ⊢; omega)
          exact ⟨fin, hfin, fun h => hb (hi.1.1 h), fun h => hl (hi.1.2 h)⟩
    · exact ⟨st, rfl, fun h => h, fun h => h⟩

end GitHub

/-! ## Facts about the Gmail run -/

namespace Gmail

theorem processId_counts (env : Env) (u : String) (i : Nat) (st : MRun) (id : String) :
    (processId env u i st id).failed = st.failed + (if itemFails env i id then 1 else 0) ∧
      (processId env u i st id).success
        = st.success + (if itemFails env i id then 0 else 1) := by
  cases hg : env.get i id <;> cases hr : env.rejects i <;>
    simp [processId, itemFails, Except.toBool, hg, hr]

theorem processIds_counts (env : Env) (u : String) (i : Nat) (ids : List String) (st : MRun) :
    (processIds env u i ids st).failed = st.failed + failures (itemFails env) i ids ∧
      (processIds env u i ids st).success + failures (itemFails env) i ids
        = st.success + ids.length := by
  induction ids generalizing i st with
  | nil => simp [processIds, failures]
  | cons id rest ih =>
    have h1 := ih (i + 1) (processId env u i st id)
    have h2 := processId_counts env u i st id
    simp only [processIds, failures, List.length_cons]
    split_ifs at h2 ⊢ <;> omega

theorem length_sliceTo (ids : List String) (n : Nat) : (sliceTo ids (n : Int)).length ≤ n := by
  unfold sliceTo
  rw [if_neg (by omega)]
  simp

end Gmail

/-! ## Counters -/

theorem finish_returned {R K D : Type} (r : Run R K D) (c : Counters)
    (h : r.finish.result = Result.returned c) :
    r.thrown = none ∧ c = ⟨r.fetched, r.success, r.failed⟩ := by
  unfold Run.finish at h
  dsimp only at h
  split at h
  · cases h
  · next hn =>
    injection h with h
    exact ⟨hn, h.symm⟩

/-- A GitHub call always ends, and when it returns counters they are balanced and
bounded by the limit. -/
theorem GitHub.fetchAndStoreCommits_ends (env : GitHub.Env) (o : GitHub.Options)
    (store : Store GitHub.Key GitHub.Doc) :
    ∃ out, GitHub.fetchAndStoreCommits env o store = some out ∧
      ∀ c, out.result = Result.returned c →
        c.requested = c.success + c.failed ∧ c.requested ≤ o.limit := by
  unfold GitHub.fetchAndStoreCommits GitHub.fetchAndStoreCommitsFuel
  split_ifs
  · exact ⟨_, rfl, fun c h => by simp [rejectCall] at h⟩
  · exact ⟨_, rfl, fun c h => by simp [rejectCall] at h⟩
  · exact ⟨_, rfl, fun c h => by simp [rejectCall] at h⟩
  · obtain ⟨fin, hfin, hb, hl⟩ := GitHub.commitLoop_inv env (o.userId.getD "") (o.owner.getD "")
      (o.repo.getD "") o.includeFiles o.limit o.limit 1 { store := store } (by simp)
    refine ⟨fin.finish, by rw [hfin]; rfl, fun c h => ?_⟩
    obtain ⟨_, hc⟩ := finish_returned fin c h
    subst hc
    exact ⟨hb rfl, hl (Nat.zero_le _)⟩

/-- What a Gmail call that returns counters has done. -/
theorem Gmail.fetchAndStoreGmail_returned (env : Gmail.Env) (o : Gmail.Options)
    (store : Store Gmail.Key Gmail.Doc) (c : Counters)
    (h : (Gmail.fetchAndStoreGmail env o store).result = Result.returned c) :
    ∃ ids log, Gmail.listMessageIds (Gmail.queryOf env o) (env.listing (Gmail.queryOf env o))
        none [] [] = (Except.ok ids, log) ∧
      c.requested = (Gmail.sliceOf o ids).length ∧
      c.failed = failures (Gmail.itemFails env) 0 (Gmail.sliceOf o ids) ∧
      c.success + failures (Gmail.itemFails env) 0 (Gmail.sliceOf o ids)
        = (Gmail.sliceOf o ids).length := by
  unfold Gmail.fetchAndStoreGmail at h
  split_ifs at h
  · simp [rejectCall] at h
  · dsimp only at h
    split at h
    · cases h
    · next ids log heq =>
      refine ⟨ids, log, heq, ?_⟩
      have hc := Gmail.processIds_counts env (o.userId.getD "default") 0 (Gmail.sliceOf o ids)
        { store := store, log := log }
      injection h with h
      subst h
      simpa using hc

/-- C1: every completed run of the three orchestrators returns counters with
`requested = success + failed`, for any upstream pages, any pattern of item successes
and failures and any options; the GitHub loop always ends. -/
theorem counters_balanced :
    (∀ (env : Discord.Env) (o : Discord.Options) (store : Store Discord.Key Discord.Doc)
        (c : Counters),
      (Discord.fetchAndStoreDiscord env o store).result = Result.returned c →
        c.requested = c.success + c.failed) ∧
    (∀ (env : GitHub.Env) (o : GitHub.Options) (store : Store GitHub.Key GitHub.Doc),
      ∃ out, GitHub.fetchAndStoreCommits env o store = some out ∧
        ∀ c, out.result = Result.returned c → c.requested = c.success + c.failed) ∧
    (∀ (env : Gmail.Env) (o : Gmail.Options) (store : Store Gmail.Key Gmail.Doc)
        (c : Counters),
      (Gmail.fetchAndStoreGmail env o store).result = Result.returned c →
        c.requested = c.success + c.failed) := by
  refine ⟨?_, ?_, ?_⟩
  · intro env o store c h
    unfold Discord.fetchAndStoreDiscord at h
    split_ifs at h
    · simp [rejectCall] at h
    · simp [rejectCall] at h
    · simp [rejectCall] at h
    · obtain ⟨_, hc⟩ := finish_returned _ c h
      subst hc
      exact Discord.pageLoop_balanced env _ _ _ _ _ _ { store := store } rfl
  · intro env o store
    obtain ⟨out, hout, hc⟩ := GitHub.fetchAndStoreCommits_ends env o store
    exact ⟨out, hout, fun c h => (hc c h).1⟩
  · intro env o store c h
    obtain ⟨ids, log, _, h1, h2, h3⟩ := Gmail.fetchAndStoreGmail_returned env o store c h
    omega

/-- The sample Discord run returns `requested = 10, success = 9, failed = 1`, and these
counters are balanced. -/
theorem counters_balanced_witness :
    (Discord.fetchAndStoreDiscord Discord.tenEnv Discord.demoOptions []).result
        = Result.returned ⟨10, 9, 1⟩ ∧
      (10 : Nat) = 9 + 1 :=
  ⟨by decide,
    counters_balanced.1 Discord.tenEnv Discord.demoOptions [] ⟨10, 9, 1⟩ (by decide)⟩

/-- C9: a GitHub run always ends and returns `requested ≤ limit` whatever the
upstream answers; a Gmail run called with a natural-number limit returns
`requested ≤ limit`; and a Gmail run whose listing yields no id returns
`requested = 0, success = 0, failed = 0`. -/
theorem requested_le_limit :
    (∀ (env : GitHub.Env) (o : GitHub.Options) (store : Store GitHub.Key GitHub.Doc),
      ∃ out, GitHub.fetchAndStoreCommits env o store = some out ∧
        ∀ c, out.result = Result.returned c → c.requested ≤ o.limit) ∧
    (∀ (env : Gmail.Env) (o : Gmail.Options) (store : Store Gmail.Key Gmail.Doc)
        (n : Nat) (c : Counters),
      o.limit = some (n : Int) →
        (Gmail.fetchAndStoreGmail env o store).result = Result.returned c →
          c.requested ≤ n) ∧
    (∀ (env : Gmail.Env) (o : Gmail.Options) (store : Store Gmail.Key Gmail.Doc)
        (log : List (Event Gmail.Request Gmail.Key)),
      truthy (Gmail.tokenOf env o) = true →
        Gmail.listMessageIds (Gmail.queryOf env o) (env.listing (Gmail.queryOf env o))
          none [] [] = (Except.ok [], log) →
          (Gmail.fetchAndStoreGmail env o store).result = Result.returned ⟨0, 0, 0⟩) := by
  refine ⟨?_, ?_, ?_⟩
  · intro env o store
    obtain ⟨out, hout, hc⟩ := GitHub.fetchAndStoreCommits_ends env o store
    exact ⟨out, hout, fun c h => (hc c h).2⟩
  · intro env o store n c hn h
    obtain ⟨ids, log, _, h1, _, _⟩ := Gmail.fetchAndStoreGmail_returned env o store c h
    rw [h1]
    unfold Gmail.sliceOf
    rw [hn]
    exact Gmail.length_sliceTo ids n
  · intro env o store log ht hl
    unfold Gmail.fetchAndStoreGmail
    rw [if_neg (by simp [ht])]
    dsimp only
    rw [hl]
    have hs : Gmail.sliceOf o [] = [] := by
      unfold Gmail.sliceOf Gmail.sliceTo
      cases o.limit <;> simp
    simp [hs, Gmail.processIds]

/-- The query `newer_than:7d` with a limit of five against a mailbox that lists no
id: the run returns three zero counters, within the limit. -/
theorem requested_le_limit_witness :
    Gmail.queryOf Gmail.emptyEnv { days := some 7, limit := some 5 } = "newer_than:7d" ∧
      (Gmail.fetchAndStoreGmail Gmail.emptyEnv { days := some 7, limit := some 5 } []).result
        = Result.returned ⟨0, 0, 0⟩ ∧
      (0 : Nat) ≤ 5 :=
  ⟨by decide,
    requested_le_limit.2.2 Gmail.emptyEnv { days := some 7, limit := some 5 } []
      [Event.request (Gmail.Request.list "newer_than:7d" none)] (by decide) rfl,
    requested_le_limit.2.1 Gmail.emptyEnv { days := some 7, limit := some 5 } [] 5 ⟨0, 0, 0⟩
      rfl (by decide)⟩

/-! ## The snowflake fallback -/

theorem excessBits_le (fuel x t : Nat) (hx : x < 2 ^ (53 + t)) : excessBits fuel x ≤ t := by
  induction fuel generalizing x t with
  | zero => simp [excessBits]
  | succ fuel ih =>
    unfold excessBits
    split
    · exact Nat.zero_le _
    · next hge =>
      cases t with
      | zero => exact absurd hx hge
      | succ t =>
        have h2 : x / 2 < 2 ^ (53 + t) := by
          have : 2 ^ (53 + (t + 1)) = 2 * 2 ^ (53 + t) := by
            rw [← Nat.add_assoc, Nat.pow_succ, Nat.mul_comm]
          omega
        have := ih (x / 2) t h2
        omega

/-- Rounding does not go below a grid point that lies below the argument. -/
theorem roundDouble_ge (x y t : Nat) (hx : x < 2 ^ (53 + t)) (hy : 2 ^ t ∣ y) (h : y ≤ x) :
    y ≤ roundDouble x := by
  have hs := excessBits_le 1024 x t hx
  have hq : y ≤ x / 2 ^ excessBits 1024 x * 2 ^ excessBits 1024 x := by
    have hd : 2 ^ excessBits 1024 x ∣ y := Dvd.dvd.trans (Nat.pow_dvd_pow 2 hs) hy
    obtain ⟨k, rfl⟩ := hd
    have hk : k ≤ x / 2 ^ excessBits 1024 x :=
      (Nat.le_div_iff_mul_le (Nat.pos_pow_of_pos _ (by decide))).2 (by rw [Nat.mul_comm]; exact h)
    rw [Nat.mul_comm]
    exact Nat.mul_le_mul_right _ hk
  have hstep : x / 2 ^ excessBits 1024 x * 2 ^ excessBits 1024 x
      ≤ (x / 2 ^ excessBits 1024 x + 1) * 2 ^ excessBits 1024 x :=
    Nat.mul_le_mul_right _ (Nat.le_succ _)
  unfold roundDouble
  dsimp only
  split_ifs <;> omega

/-- Rounding goes up by at most half a grid step. -/
theorem roundDouble_le (x t : Nat) (hx : x < 2 ^ (53 + t)) :
    2 * roundDouble x ≤ 2 * x + 2 ^ t := by
  have hs := excessBits_le 1024 x t hx
  have hp : 2 ^ excessBits 1024 x ≤ 2 ^ t := Nat.pow_le_pow_right (by decide) hs
  have hdm := Nat.div_add_mod x (2 ^ excessBits 1024 x)
  have hmul : (x / 2 ^ excessBits 1024 x + 1) * 2 ^ excessBits 1024 x
      = 2 ^ excessBits 1024 x * (x / 2 ^ excessBits 1024 x) + 2 ^ excessBits 1024 x := by
    rw [Nat.add_mul, Nat.one_mul, Nat.mul_comm]
  have hmul2 : x / 2 ^ excessBits 1024 x * 2 ^ excessBits 1024 x
      = 2 ^ excessBits 1024 x * (x / 2 ^ excessBits 1024 x) := Nat.mul_comm _ _
  unfold roundDouble
  dsimp only
  split_ifs <;> omega

/-- The fallback is exact when the low 22 bits of the snowflake stay 3072 below a
whole millisecond. -/
theorem snowflakeDateMs_exact (n : Nat) (hn : n < 2 ^ 64) (hlow : n % 4194304 < 4194304 - 3072) :
    snowflakeDateMs n = n / 4194304 + 1420070400000 := by
  have hC : 1420070400000 * 4194304 = 5956206959001600000 := by norm_num
  have h1 : n / 4194304 * 4194304 ≤ roundDouble n :=
    roundDouble_ge n _ 11 (by simpa using hn) ⟨n / 4194304 * 2048, by omega⟩
      (Nat.div_mul_le_self _ _)
  have h2 := roundDouble_le n 11 (by simpa using hn)
  have hx : roundDouble n + 5956206959001600000 < 2 ^ (53 + 12) := by
    norm_num at hn h2 ⊢
    omega
  have h3 : (n / 4194304 + 1420070400000) * 4194304
      ≤ roundDouble (roundDouble n + 5956206959001600000) :=
    roundDouble_ge _ _ 12 hx ⟨(n / 4194304 + 1420070400000) * 1024, by omega⟩ (by omega)
  have h4 := roundDouble_le _ 12 hx
  unfold snowflakeDateMs
  rw [hC]
  norm_num at h2 h4
  omega

/-- C10 (counterexample): the message with id 4194303 and no timestamp gets the created
time 1420070400001 ms, one more than `floor(4194303 / 4194304) + 1420070400000`; and a
message whose timestamp field is the empty string does not get that timestamp. -/
theorem createdAt_counterexample :
    Discord.createdAt { id := 4194303 } = JsDate.ms 1420070400001 ∧
      1420070400001 ≠ 4194303 / 4194304 + 1420070400000 ∧
      Discord.createdAt { id := 4194304, timestamp := some "" } ≠ JsDate.parse "" := by
  decide

/-- C10 (amended): a message with a non-empty timestamp field gets that timestamp as its
created time; a message without one (or with an empty one) whose id is a snowflake
`n < 2 ^ 64` with `n mod 4194304 < 4194304 - 3072` gets the created time
`floor(n / 4194304) + 1420070400000` ms, and so does its document. -/
theorem createdAt_amended (m : Discord.Message) :
    (∀ t, m.timestamp = some t → t ≠ "" → Discord.createdAt m = JsDate.parse t) ∧
    (truthy m.timestamp = false → m.id < 2 ^ 64 → m.id % 4194304 < 4194304 - 3072 →
      Discord.createdAt m = JsDate.ms (m.id / 4194304 + 1420070400000) ∧
      ∀ (u c : String) (now : Nat) (doc : Discord.Doc),
        Discord.buildDoc u c now m = some doc →
          doc.createdAt = JsDate.ms (m.id / 4194304 + 1420070400000)) := by
  refine ⟨fun t ht hne => ?_, fun ht hn hlow => ?_⟩
  · simp [Discord.createdAt, truthy, ht, hne]
  · have hc : Discord.createdAt m = JsDate.ms (m.id / 4194304 + 1420070400000) := by
      simp [Discord.createdAt, ht, snowflakeDateMs_exact m.id hn hlow]
    refine ⟨hc, fun u c now doc hd => ?_⟩
    unfold Discord.buildDoc at hd
    split at hd
    · cases hd
    · injection hd with hd
      rw [← hd]
      exact hc

/-- A message with timestamp gets it, and the snowflake 175928847299117063 of the
Discord documentation gets the created time 1462015105796 ms. -/
theorem createdAt_amended_witness :
    Discord.createdAt { id := 1, timestamp := some "2016-04-30T11:18:25.796Z" }
        = JsDate.parse "2016-04-30T11:18:25.796Z" ∧
      Discord.createdAt { id := 175928847299117063 } = JsDate.ms 1462015105796 :=
  ⟨(createdAt_amended { id := 1, timestamp := some "2016-04-30T11:18:25.796Z" }).1 _ rfl
      (by decide),
    ((createdAt_amended { id := 175928847299117063 }).2 (by decide) (by decide)
      (by decide)).1⟩

/-! ## Validation before the run -/

/-- C5 (counterexample): a Gmail run without user id, against a mailbox of three
messages, does not fail: it makes network calls, writes to the store under the user
id `default` and returns counters. -/
theorem validation_counterexample :
    (Gmail.fetchAndStoreGmail Gmail.threeEnv { userId := none } []).result
        = Result.returned ⟨3, 2, 1⟩ ∧
      keys (Gmail.fetchAndStoreGmail Gmail.threeEnv { userId := none } []).store
        = [("default", "m1"), ("default", "m3")] ∧
      requestsOf (Gmail.fetchAndStoreGmail Gmail.threeEnv { userId := none } []).log
        = [Gmail.Request.list "newer_than:30d" none,
           Gmail.Request.list "newer_than:30d" (some "next"),
           Gmail.Request.get "m1", Gmail.Request.get "m2", Gmail.Request.get "m3"] := by
  decide

/-- C5 (amended): a Discord run with a missing token, user id or channel id, a GitHub
run with a missing user id, owner, repo or token and a Gmail run with a missing
refresh token throw before any network request and any store write and return no
counters; a Gmail run without user id is the run with the user id `default`. -/
theorem validation_amended :
    (∀ (env : Discord.Env) (o : Discord.Options) (store : Store Discord.Key Discord.Doc),
      truthy env.token = false ∨ truthy o.userId = false ∨ truthy o.channelId = false →
        (∃ e, (Discord.fetchAndStoreDiscord env o store).result = Result.threw e) ∧
          (Discord.fetchAndStoreDiscord env o store).log = [] ∧
          (Discord.fetchAndStoreDiscord env o store).store = store) ∧
    (∀ (env : GitHub.Env) (o : GitHub.Options) (store : Store GitHub.Key GitHub.Doc),
      truthy o.userId = false ∨ truthy o.owner = false ∨ truthy o.repo = false ∨
          truthy (GitHub.tokenOf env o) = false →
        ∃ out, GitHub.fetchAndStoreCommits env o store = some out ∧
          (∃ e, out.result = Result.threw e) ∧ out.log = [] ∧ out.store = store) ∧
    (∀ (env : Gmail.Env) (o : Gmail.Options) (store : Store Gmail.Key Gmail.Doc),
      truthy (Gmail.tokenOf env o) = false →
        (∃ e, (Gmail.fetchAndStoreGmail env o store).result = Result.threw e) ∧
          (Gmail.fetchAndStoreGmail env o store).log = [] ∧
          (Gmail.fetchAndStoreGmail env o store).store = store) ∧
    (∀ (env : Gmail.Env) (o : Gmail.Options) (store : Store Gmail.Key Gmail.Doc),
      Gmail.fetchAndStoreGmail env { o with userId := none } store
        = Gmail.fetchAndStoreGmail env { o with userId := some "default" } store) := by
  refine ⟨?_, ?_, ?_, ?_⟩
  · intro env o store h
    unfold Discord.fetchAndStoreDiscord
    split_ifs with h1 h2 h3
    · exact ⟨⟨_, rfl⟩, rfl, rfl⟩
    · exact ⟨⟨_, rfl⟩, rfl, rfl⟩
    · exact ⟨⟨_, rfl⟩, rfl, rfl⟩
    · simp at h1 h2 h3
      simp [h1, h2, h3] at h
  · intro env o store h
    unfold GitHub.fetchAndStoreCommits GitHub.fetchAndStoreCommitsFuel
    split_ifs with h1 h2 h3
    · exact ⟨_, rfl, ⟨_, rfl⟩, rfl, rfl⟩
    · exact ⟨_, rfl, ⟨_, rfl⟩, rfl, rfl⟩
    · exact ⟨_, rfl, ⟨_, rfl⟩, rfl, rfl⟩
    · simp at h1 h2 h3
      simp [h1, h2, h3] at h
  · intro env o store h
    unfold Gmail.fetchAndStoreGmail
    rw [if_pos (by simp [h])]
    exact ⟨⟨_, rfl⟩, rfl, rfl⟩
  · intro env o store
    rfl

/-- A Discord run without channel id throws `channelId required` and touches nothing. -/
theorem validation_amended_witness :
    (Discord.fetchAndStoreDiscord Discord.tenEnv { userId := some "demo", channelId := none } []).result
        = Result.threw "channelId required" ∧
      (∃ e, (Discord.fetchAndStoreDiscord Discord.tenEnv
          { userId := some "demo", channelId := none } []).result = Result.threw e) ∧
      (Discord.fetchAndStoreDiscord Discord.tenEnv
          { userId := some "demo", channelId := none } []).log = [] :=
  ⟨by decide,
    (validation_amended.1 Discord.tenEnv { userId := some "demo", channelId := none } []
      (Or.inr (Or.inr (by decide)))).1,
    (validation_amended.1 Discord.tenEnv { userId := some "demo", channelId := none } []
      (Or.inr (Or.inr (by decide)))).2.1⟩

/-! ## The commit-listing requests of a GitHub run -/

namespace GitHub

theorem listRequestsOf_append (a b : List (Event Request Key)) :
    listRequestsOf (a ++ b) = listRequestsOf a ++ listRequestsOf b := by
  simp [listRequestsOf, List.filterMap_append]

theorem processCommit_listRequests (env : Env) (u o r : String) (inc : Bool) (st : GRun)
    (c : Commit) :
    listRequestsOf (processCommit env u o r inc st c).log = listRequestsOf st.log := by
  cases inc <;> cases hd : env.detail st.fetched c.sha <;> cases hr : env.rejects st.fetched <;>
    simp [processCommit, getCommit, Except.map, hd, hr, listRequestsOf, List.filterMap_append]

theorem processPage_listRequests (env : Env) (u o r : String) (inc : Bool) (limit : Nat)
    (commits : List Commit) (st : GRun) :
    listRequestsOf (processPage env u o r inc limit commits st).log = listRequestsOf st.log := by
  induction commits generalizing st with
  | nil => simp [processPage]
  | cons c rest ih =>
    unfold processPage
    split
    · rfl
    · rw [ih, processCommit_listRequests]

theorem processPage_fetched (env : Env) (u o r : String) (inc : Bool) (limit : Nat)
    (commits : List Commit) (st : GRun) (h : st.fetched ≤ limit) :
    (processPage env u o r inc limit commits st).fetched
      = min limit (st.fetched + commits.length) := by
  induction commits generalizing st with
  | nil => simp [processPage, h]
  | cons c rest ih =>
    unfold processPage
    split
    · next hge =>
      simp only [List.length_cons]
      omega
    · next hlt =>
      rw [ih _ (by rw [processCommit_fetched]; omega), processCommit_fetched]
      simp only [List.length_cons]
      omega

/-- The listing requests logged before the loop continues stay at the front of the log. -/
theorem commitLoop_listRequests_prefix (env : Env) (u o r : String) (inc : Bool) (limit : Nat)
    (fuel page : Nat) (st fin : GRun)
    (h : commitLoop env u o r inc limit fuel page st = some fin) :
    ∃ ext, listRequestsOf fin.log = listRequestsOf st.log ++ ext := by
  induction fuel generalizing page st with
  | zero =>
    unfold commitLoop at h
    split at h
    · cases h
    · injection h with h
      exact ⟨[], by rw [← h]; simp⟩
  | succ fuel ih =>
    unfold commitLoop at h
    split at h
    · dsimp only at h
      split at h
      · injection h with h
        exact ⟨_, by rw [← h]; exact listRequestsOf_append _ _⟩
      · split at h
        · injection h with h
          exact ⟨_, by rw [← h]; exact listRequestsOf_append _ _⟩
        · obtain ⟨ext, hext⟩ := ih _ _ h
          rw [processPage_listRequests, listRequestsOf_append] at hext
          exact ⟨_, by rw [hext, List.append_assoc]⟩
    · injection h with h
      exact ⟨[], by rw [← h]; simp⟩

end GitHub

/-- C3 (counterexample): with a limit of 30 and a repository of ten commits, two
commit-listing pages are requested, the second with `per_page = 20` and `page = 2`. -/
theorem single_page_counterexample :
    (GitHub.fetchAndStoreCommits (GitHub.repoEnv GitHub.tenCommits) (GitHub.demoOptions 30) []).map
        (fun out => (GitHub.listRequestsOf out.log, out.result))
      = some ([⟨"octocat", "hello", 30, 1⟩, ⟨"octocat", "hello", 20, 2⟩],
          Result.returned ⟨10, 10, 0⟩) := by
  decide

/-- C3 (amended): for a limit `L` with `1 ≤ L ≤ 100` the run ends, its first
commit-listing request carries `per_page = L` and `page = 1`, and this is the only
listing request whenever it fails or its page is empty or holds at least `L` commits. -/
theorem single_page_amended (env : GitHub.Env) (o : GitHub.Options)
    (store : Store GitHub.Key GitHub.Doc) (hu : truthy o.userId = true)
    (ho : truthy o.owner = true) (hr : truthy o.repo = true)
    (ht : truthy (GitHub.tokenOf env o) = true) (h1 : 1 ≤ o.limit) (h100 : o.limit ≤ 100) :
    ∃ out, GitHub.fetchAndStoreCommits env o store = some out ∧
      (GitHub.listRequestsOf out.log).head?
        = some ⟨o.owner.getD "", o.repo.getD "", o.limit, 1⟩ ∧
      ((∀ commits, env.api ⟨o.owner.getD "", o.repo.getD "", o.limit, 1⟩ = Except.ok commits →
          commits = [] ∨ o.limit ≤ commits.length) →
        GitHub.listRequestsOf out.log = [⟨o.owner.getD "", o.repo.getD "", o.limit, 1⟩]) := by
  obtain ⟨out, hout, _⟩ := GitHub.fetchAndStoreCommits_ends env o store
  refine ⟨out, hout, ?_⟩
  unfold GitHub.fetchAndStoreCommits GitHub.fetchAndStoreCommitsFuel at hout
  rw [if_neg (by simp [hu]), if_neg (by simp [ho, hr]), if_neg (by simp [ht])] at hout
  obtain ⟨n, hn⟩ : ∃ n, o.limit = n + 1 := ⟨o.limit - 1, by omega⟩
  have hmin : min (min 100 (o.limit - 0)) 100 = o.limit := by
    simp only [Nat.sub_zero]
    omega
  generalize hlim : o.limit = L at *
  subst hn
  unfold GitHub.commitLoop at hout
  simp only [Nat.lt_add_one_iff, Nat.zero_le, if_true, GitHub.listCommits, hmin,
    List.nil_append] at hout
  cases hapi : env.api ⟨o.owner.getD "", o.repo.getD "", n + 1, 1⟩ with
  | error e =>
    simp only [hapi, Option.map_some', Option.some.injEq] at hout
    subst hout
    simp [Run.finish, GitHub.listRequestsOf]
  | ok commits =>
    simp only [hapi] at hout
    split at hout
    · simp only [Option.map_some', Option.some.injEq] at hout
      subst hout
      simp [Run.finish, GitHub.listRequestsOf]
    · next hne =>
      cases hloop : GitHub.commitLoop env (o.userId.getD "") (o.owner.getD "") (o.repo.getD "")
          o.includeFiles (n + 1) n (1 + 1)
          (GitHub.processPage env (o.userId.getD "") (o.owner.getD "") (o.repo.getD "")
            o.includeFiles (n + 1) commits
            { store := store, log := [Event.request (GitHub.Request.list
                ⟨o.owner.getD "", o.repo.getD "", n + 1, 1⟩)] }) with
      | none => simp [hloop] at hout
      | some fin =>
        simp only [hloop, Option.map_some', Option.some.injEq] at hout
        subst hout
        obtain ⟨ext, hext⟩ := GitHub.commitLoop_listRequests_prefix _ _ _ _ _ _ _ _ _ _ hloop
        rw [GitHub.processPage_listRequests] at hext
        refine ⟨?_, fun hfull => ?_⟩
        · simp only [Run.finish]
          rw [hext]
          simp [GitHub.listRequestsOf]
        have hlen : n + 1 ≤ commits.length := by
          rcases hfull commits rfl with h | h
          · simp [h] at hne
          · exact h
        have hf := GitHub.processPage_fetched env (o.userId.getD "") (o.owner.getD "")
          (o.repo.getD "") o.includeFiles (n + 1) commits
          { store := store, log := [Event.request (GitHub.Request.list
              ⟨o.owner.getD "", o.repo.getD "", n + 1, 1⟩)] } (Nat.zero_le _)
        have hf2 : (GitHub.processPage env (o.userId.getD "") (o.owner.getD "") (o.repo.getD "")
            o.includeFiles (n + 1) commits
            { store := store, log := [Event.request (GitHub.Request.list
                ⟨o.owner.getD "", o.repo.getD "", n + 1, 1⟩)] }).fetched = n + 1 := by
          rw [hf]
          simp only [Nat.zero_add]
          omega
        have hstop : fin = GitHub.processPage env (o.userId.getD "") (o.owner.getD "")
            (o.repo.getD "") o.includeFiles (n + 1) commits
            { store := store, log := [Event.request (GitHub.Request.list
                ⟨o.owner.getD "", o.repo.getD "", n + 1, 1⟩)] } := by
          cases n with
          | zero =>
            unfold GitHub.commitLoop at hloop
            rw [if_neg (by omega)] at hloop
            exact (Option.some.inj hloop).symm
          | succ n =>
            unfold GitHub.commitLoop at hloop
            rw [if_neg (by omega)] at hloop
            exact (Option.some.inj hloop).symm
        simp only [Run.finish]
        rw [hstop, GitHub.processPage_listRequests]
        simp [GitHub.listRequestsOf]

/-- The default route limit of 30 against a repository whose first page is empty: one
listing request with `per_page = 30`. -/
theorem single_page_amended_witness :
    ∃ out, GitHub.fetchAndStoreCommits (GitHub.repoEnv []) (GitHub.demoOptions 30) [] = some out ∧
      (GitHub.listRequestsOf out.log).head? = some ⟨"octocat", "hello", 30, 1⟩ ∧
      ((∀ commits, (GitHub.repoEnv []).api ⟨"octocat", "hello", 30, 1⟩ = Except.ok commits →
          commits = [] ∨ 30 ≤ commits.length) →
        GitHub.listRequestsOf out.log = [⟨"octocat", "hello", 30, 1⟩]) :=
  single_page_amended (GitHub.repoEnv []) (GitHub.demoOptions 30) [] (by decide) (by decide)
    (by decide) (by decide) (by decide) (by decide)

/-- C11 (failing input): against a repository of three commits served by page number, a
run with limit 5 requests the pages `(per_page 5, page 1)`, `(2, 2)`, `(1, 3)`,
processes the commit `c2` three times and returns `requested = 5`, not
`min 3 5 = 3`; with thirty commits and the limit 50 it returns `requested = 50`. -/
theorem commit_pagination_failing_input :
    (GitHub.fetchAndStoreCommits (GitHub.repoEnv GitHub.threeCommits) (GitHub.demoOptions 5) []).map
        (fun out => (out.result, (writesOf out.log).map (fun k => k.2.2.2),
          (GitHub.listRequestsOf out.log).map (fun r => (r.perPage, r.page))))
      = some (Result.returned ⟨5, 5, 0⟩, ["c0", "c1", "c2", "c2", "c2"], [(5, 1), (2, 2), (1, 3)]) ∧
    min GitHub.threeCommits.length 5 = 3 ∧
    (GitHub.fetchAndStoreCommits (GitHub.repoEnv GitHub.thirtyCommits) (GitHub.demoOptions 50) []).map
        (fun out => (out.result, (GitHub.listRequestsOf out.log).map (fun r => (r.perPage, r.page))))
      = some (Result.returned ⟨50, 50, 0⟩, [(50, 1), (20, 2), (10, 3)]) ∧
    min GitHub.thirtyCommits.length 50 = 30 := by
  decide

/-! ## Failed page fetches and failed item operations -/

namespace Discord

theorem processMessage_log (env : Env) (u c : String) (st : DRun) (m : Message) :
    ∃ ws, (processMessage env u c st m).log = st.log ++ ws ∧
      ∀ x, Event.request x ∉ ws := by
  cases hb : buildDoc u c (env.now st.fetched) m <;> cases hr : env.rejects st.fetched
  · exact ⟨[], by simp [processMessage, hb], by simp⟩
  · exact ⟨[], by simp [processMessage, hb], by simp⟩
  · exact ⟨[Event.write (u, c, m.id)], by simp [processMessage, hb, hr], by simp⟩
  · exact ⟨[Event.write (u, c, m.id)], by simp [processMessage, hb, hr], by simp⟩

theorem foldl_log (env : Env) (u c : String) (msgs : List Message) (st : DRun) :
    ∃ ws, (msgs.foldl (processMessage env u c) st).log = st.log ++ ws ∧
      ∀ x, Event.request x ∉ ws := by
  induction msgs generalizing st with
  | nil => exact ⟨[], by simp, by simp⟩
  | cons m rest ih =>
    obtain ⟨w1, h1, n1⟩ := processMessage_log env u c st m
    obtain ⟨w2, h2, n2⟩ := ih (processMessage env u c st m)
    refine ⟨w1 ++ w2, by rw [List.foldl_cons, h2, h1, List.append_assoc], ?_⟩
    intro x hx
    rcases List.mem_append.1 hx with h | h
    · exact n1 x h
    · exact n2 x h

/-- The log of the loop over the pages: a page request that is answered with an error
is the last event of the run, and its error is the one thrown; the run throws only
when a page request failed. -/
theorem pageLoop_log (env : Env) (u c : String) (perPage : Nat) (n p : Nat)
    (before : Option Nat) (st : DRun) :
    ∃ ext, (pageLoop env u c perPage n p before st).log = st.log ++ ext ∧
      (∀ k r, Event.request (k, r) ∈ ext → p ≤ k) ∧
      (∀ k r e, Event.request (k, r) ∈ ext → env.api k r = Except.error e →
        (pageLoop env u c perPage n p before st).thrown = some e ∧
          ext.getLast? = some (Event.request (k, r))) ∧
      ((∀ k r e, Event.request (k, r) ∈ ext → env.api k r ≠ Except.error e) →
        (pageLoop env u c perPage n p before st).thrown = st.thrown) := by
  induction n generalizing p before st with
  | zero => exact ⟨[], by simp [pageLoop], by simp, by simp, fun _ => by simp [pageLoop]⟩
  | succ n ih =>
    unfold pageLoop
    dsimp only
    cases hapi : fetchPage env p c perPage before with
    | error e0 =>
      refine ⟨[Event.request (p, ⟨c, min perPage 100, before⟩)], rfl, ?_, ?_, ?_⟩
      · intro k r hk
        simp only [List.mem_singleton, Event.request.injEq, Prod.mk.injEq] at hk
        omega
      · intro k r e hk he
        simp only [List.mem_singleton, Event.request.injEq, Prod.mk.injEq] at hk
        obtain ⟨rfl, rfl⟩ := hk
        unfold fetchPage at hapi
        rw [hapi] at he
        injection he with he
        subst he
        simp
      · intro hno
        unfold fetchPage at hapi
        exact absurd hapi (hno p _ e0 (by simp))
    | ok msgs =>
      dsimp only
      split
      · refine ⟨[Event.request (p, ⟨c, min perPage 100, before⟩)], rfl, ?_, ?_, fun _ => rfl⟩
        · intro k r hk
          simp only [List.mem_singleton, Event.request.injEq, Prod.mk.injEq] at hk
          omega
        · intro k r e hk he
          simp only [List.mem_singleton, Event.request.injEq, Prod.mk.injEq] at hk
          obtain ⟨rfl, rfl⟩ := hk
          unfold fetchPage at hapi
          rw [hapi] at he
          cases he
      · obtain ⟨ws, hws, nws⟩ := foldl_log env u c msgs
          { st with log := st.log ++ [Event.request (p, ⟨c, min perPage 100, before⟩)] }
        obtain ⟨ext, hext, hidx, hfail, hok⟩ := ih (p + 1) (msgs.getLast?.map (fun m => m.id))
          (msgs.foldl (processMessage env u c)
            { st with log := st.log ++ [Event.request (p, ⟨c, min perPage 100, before⟩)] })
        have hmem : ∀ k r, Event.request (k, r) ∈
            [Event.request (p, (⟨c, min perPage 100, before⟩ : Request))] ++ ws ++ ext →
            (k = p ∧ r = ⟨c, min perPage 100, before⟩) ∨ Event.request (k, r) ∈ ext := by
          intro k r hk
          rcases List.mem_append.1 hk with h | h
          · rcases List.mem_append.1 h with h | h
            · simp only [List.mem_singleton, Event.request.injEq, Prod.mk.injEq] at h
              exact Or.inl h
            · exact absurd h (nws _)
          · exact Or.inr h
        refine ⟨[Event.request (p, ⟨c, min perPage 100, before⟩)] ++ ws ++ ext, ?_, ?_, ?_, ?_⟩
        · rw [hext, hws]
          simp [List.append_assoc]
        · intro k r hk
          rcases hmem k r hk with ⟨rfl, _⟩ | h
          · exact Nat.le_refl _
          · exact Nat.le_of_succ_le (hidx k r h)
        · intro k r e hk he
          rcases hmem k r hk with ⟨rfl, rfl⟩ | h
          · unfold fetchPage at hapi
            rw [hapi] at he
            cases he
          · obtain ⟨h1, h2⟩ := hfail k r e h he
            refine ⟨h1, ?_⟩
            have hne : ext ≠ [] := by
              intro e0
              rw [e0] at h
              simp at h
            rw [List.getLast?_append_of_ne_nil _ hne]
            exact h2
        · intro hno
          rw [hok (fun k r e hk => hno k r e (List.mem_append_right _ hk)), foldl_thrown]

end Discord

namespace GitHub

theorem processCommit_log (env : Env) (u o r : String) (inc : Bool) (st : GRun) (c : Commit) :
    ∃ ws, (processCommit env u o r inc st c).log = st.log ++ ws ∧
      ∀ x, Event.request (Request.list x) ∉ ws := by
  cases inc
  · cases hr : env.rejects st.fetched <;>
      exact ⟨[Event.write (u, o, r, c.sha)], by simp [processCommit, hr], by simp⟩
  · cases hd : env.detail st.fetched c.sha
    · exact ⟨[Event.request (Request.detail c.sha)],
        by simp [processCommit, getCommit, Except.map, hd], by simp⟩
    · cases hr : env.rejects st.fetched <;>
        exact ⟨[Event.request (Request.detail c.sha), Event.write (u, o, r, c.sha)],
          by simp [processCommit, getCommit, Except.map, hd, hr], by simp⟩

theorem processPage_log (env : Env) (u o r : String) (inc : Bool) (limit : Nat)
    (commits : List Commit) (st : GRun) :
    ∃ ws, (processPage env u o r inc limit commits st).log = st.log ++ ws ∧
      ∀ x, Event.request (Request.list x) ∉ ws := by
  induction commits generalizing st with
  | nil => exact ⟨[], by simp [processPage], by simp⟩
  | cons c rest ih =>
    unfold processPage
    split
    · exact ⟨[], by simp, by simp⟩
    · obtain ⟨w1, h1, n1⟩ := processCommit_log env u o r inc st c
      obtain ⟨w2, h2, n2⟩ := ih (processCommit env u o r inc st c)
      refine ⟨w1 ++ w2, by rw [h2, h1, List.append_assoc], ?_⟩
      intro x hx
      rcases List.mem_append.1 hx with h | h
      · exact n1 x h
      · exact n2 x h

/-- The log of the loop over the pages: a listing request that is answered with an
error is the last event of the run, and its error is the one thrown; the run throws
only when a listing request failed. -/
theorem commitLoop_log (env : Env) (u o r : String) (inc : Bool) (limit : Nat)
    (fuel page : Nat) (st fin : GRun)
    (h : commitLoop env u o r inc limit fuel page st = some fin) :
    ∃ ext, fin.log = st.log ++ ext ∧
      (∀ x e, Event.request (Request.list x) ∈ ext → env.api x = Except.error e →
        fin.thrown = some e ∧ ext.getLast? = some (Event.request (Request.list x))) ∧
      ((∀ x e, Event.request (Request.list x) ∈ ext → env.api x ≠ Except.error e) →
        fin.thrown = st.thrown) := by
  induction fuel generalizing page st with
  | zero =>
    unfold commitLoop at h
    split at h
    · cases h
    · injection h with h
      subst h
      exact ⟨[], by simp, by simp, fun _ => rfl⟩
  | succ fuel ih =>
    unfold commitLoop at h
    split at h
    · dsimp only at h
      cases hapi : listCommits env o r (min 100 (limit - st.fetched)) page with
      | error e0 =>
        rw [hapi] at h
        injection h with h
        subst h
        refine ⟨[Event.request (Request.list ⟨o, r, min (min 100 (limit - st.fetched)) 100, page⟩)],
          rfl, ?_, ?_⟩
        · intro x e hx he
          simp only [List.mem_singleton, Event.request.injEq, Request.list.injEq] at hx
          subst hx
          unfold listCommits at hapi
          rw [hapi] at he
          injection he with he
          subst he
          simp
        · intro hno
          unfold listCommits at hapi
          exact absurd hapi (hno _ e0 (by simp))
      | ok commits =>
        rw [hapi] at h
        dsimp only at h
        split at h
        · injection h with h
          subst h
          refine ⟨[Event.request (Request.list ⟨o, r, min (min 100 (limit - st.fetched)) 100, page⟩)],
            rfl, ?_, fun _ => rfl⟩
          intro x e hx he
          simp only [List.mem_singleton, Event.request.injEq, Request.list.injEq] at hx
          subst hx
          unfold listCommits at hapi
          rw [hapi] at he
          cases he
        · obtain ⟨ws, hws, nws⟩ := processPage_log env u o r inc limit commits
            { st with log := st.log ++
                [Event.request (Request.list ⟨o, r, min (min 100 (limit - st.fetched)) 100, page⟩)] }
          obtain ⟨ext, hext, hfail, hok⟩ := ih _ _ h
          have hmem : ∀ x, Event.request (Request.list x) ∈
              [Event.request (Request.list ⟨o, r, min (min 100 (limit - st.fetched)) 100, page⟩)]
                ++ ws ++ ext →
              x = ⟨o, r, min (min 100 (limit - st.fetched)) 100, page⟩ ∨
                Event.request (Request.list x) ∈ ext := by
            intro x hx
            rcases List.mem_append.1 hx with h | h
            · rcases List.mem_append.1 h with h | h
              · simp only [List.mem_singleton, Event.request.injEq, Request.list.injEq] at h
                exact Or.inl h
              · exact absurd h (nws _)
            · exact Or.inr h
          refine ⟨[Event.request (Request.list ⟨o, r, min (min 100 (limit - st.fetched)) 100, page⟩)]
            ++ ws ++ ext, ?_, ?_, ?_⟩
          · rw [hext, hws]
            simp [List.append_assoc]
          · intro x e hx he
            rcases hmem x hx with rfl | h
            · unfold listCommits at hapi
              rw [hapi] at he
              cases he
            · obtain ⟨h1, h2⟩ := hfail x e h he
              refine ⟨h1, ?_⟩
              have hne : ext ≠ [] := by
                intro e0
                rw [e0] at h
                simp at h
              rw [List.getLast?_append_of_ne_nil _ hne]
              exact h2
          · intro hno
            rw [hok (fun x e hx => hno x e (List.mem_append_right _ hx))]
            exact (processPage_inv env u o r inc limit commits _).2.2
    · injection h with h
      subst h
      exact ⟨[], by simp, by simp, fun _ => rfl⟩

end GitHub

theorem finish_threw {R K D : Type} (r : Run R K D) (e : String) (h : r.thrown = some e) :
    r.finish.result = Result.threw e := by
  simp [Run.finish, h]

theorem finish_ok {R K D : Type} (r : Run R K D) (h : r.thrown = none) :
    r.finish.result = Result.returned ⟨r.fetched, r.success, r.failed⟩ := by
  simp [Run.finish, h]

/-- C7: in a Discord or GitHub run a page request answered with an error is the last
event of the run (no item of that page is processed, no later page is requested), the
run throws that error, and the failed fetch leaves counters and store as they were;
a failed commit detail request or a failed Gmail message get is counted in `failed`
and the run still returns its counters. -/
theorem page_failure_aborts :
    (∀ (env : Discord.Env) (o : Discord.Options) (store : Store Discord.Key Discord.Doc)
        (k : Nat) (r : Discord.Request) (e : String),
      Event.request (k, r) ∈ (Discord.fetchAndStoreDiscord env o store).log →
        env.api k r = Except.error e →
          (Discord.fetchAndStoreDiscord env o store).result = Result.threw e ∧
            (Discord.fetchAndStoreDiscord env o store).log.getLast?
              = some (Event.request (k, r))) ∧
    (∀ (env : Discord.Env) (u c : String) (perPage n p : Nat) (before : Option Nat)
        (st : Discord.DRun) (e : String),
      Discord.fetchPage env p c perPage before = Except.error e →
        Discord.pageLoop env u c perPage (n + 1) p before st
          = { st with
              log := st.log ++ [Event.request (p, ⟨c, min perPage 100, before⟩)]
              thrown := some e }) ∧
    (∀ (env : GitHub.Env) (o : GitHub.Options) (store : Store GitHub.Key GitHub.Doc)
        (out : Outcome GitHub.Request GitHub.Key GitHub.Doc) (r : GitHub.ListRequest)
        (e : String),
      GitHub.fetchAndStoreCommits env o store = some out →
        Event.request (GitHub.Request.list r) ∈ out.log → env.api r = Except.error e →
          out.result = Result.threw e ∧
            out.log.getLast? = some (Event.request (GitHub.Request.list r))) ∧
    (∀ (env : GitHub.Env) (u o r : String) (inc : Bool) (limit fuel page : Nat)
        (st : GitHub.GRun) (e : String),
      st.fetched < limit →
        GitHub.listCommits env o r (min 100 (limit - st.fetched)) page = Except.error e →
          GitHub.commitLoop env u o r inc limit (fuel + 1) page st
            = some { st with
                log := st.log ++ [Event.request (GitHub.Request.list
                  ⟨o, r, min (min 100 (limit - st.fetched)) 100, page⟩)]
                thrown := some e }) ∧
    (∀ (env : GitHub.Env) (u o r : String) (st : GitHub.GRun) (c : GitHub.Commit) (e : String),
      GitHub.getCommit env st.fetched c.sha = Except.error e →
        GitHub.processCommit env u o r true st c
          = { st with
              fetched := st.fetched + 1
              failed := st.failed + 1
              log := st.log ++ [Event.request (GitHub.Request.detail c.sha)] }) ∧
    (∀ (env : GitHub.Env) (o : GitHub.Options) (store : Store GitHub.Key GitHub.Doc)
        (out : Outcome GitHub.Request GitHub.Key GitHub.Doc),
      GitHub.fetchAndStoreCommits env o store = some out →
        truthy o.userId = true → truthy o.owner = true → truthy o.repo = true →
          truthy (GitHub.tokenOf env o) = true →
            (∀ r e, Event.request (GitHub.Request.list r) ∈ out.log →
              env.api r ≠ Except.error e) →
              ∃ c, out.result = Result.returned c) ∧
    (∀ (env : Gmail.Env) (o : Gmail.Options) (store : Store Gmail.Key Gmail.Doc)
        (ids : List String) (log : List (Event Gmail.Request Gmail.Key)),
      truthy (Gmail.tokenOf env o) = true →
        Gmail.listMessageIds (Gmail.queryOf env o) (env.listing (Gmail.queryOf env o))
          none [] [] = (Except.ok ids, log) →
          (Gmail.fetchAndStoreGmail env o store).result
            = Result.returned
                ⟨(Gmail.sliceOf o ids).length,
                  (Gmail.sliceOf o ids).length
                    - failures (Gmail.itemFails env) 0 (Gmail.sliceOf o ids),
                  failures (Gmail.itemFails env) 0 (Gmail.sliceOf o ids)⟩) := by
  refine ⟨?_, ?_, ?_, ?_, ?_, ?_, ?_⟩
  · intro env o store k r e hk he
    unfold Discord.fetchAndStoreDiscord at hk ⊢
    split_ifs at hk ⊢
    · simp [rejectCall] at hk
    · simp [rejectCall] at hk
    · simp [rejectCall] at hk
    · obtain ⟨ext, hext, _, hfail, _⟩ := Discord.pageLoop_log env (o.userId.getD "")
        (o.channelId.getD "") o.perPage o.pages 0 none { store := store }
      simp only [Run.finish, List.nil_append] at hk hext ⊢
      rw [hext] at hk ⊢
      obtain ⟨h1, h2⟩ := hfail k r e hk he
      exact ⟨by rw [h1], h2⟩
  · intro env u c perPage n p before st e he
    rw [Discord.pageLoop]
    simp only [he]
  · intro env o store out r e hout hr he
    unfold GitHub.fetchAndStoreCommits GitHub.fetchAndStoreCommitsFuel at hout
    split_ifs at hout
    · injection hout with hout
      subst hout
      simp [rejectCall] at hr
    · injection hout with hout
      subst hout
      simp [rejectCall] at hr
    · injection hout with hout
      subst hout
      simp [rejectCall] at hr
    · cases hloop : GitHub.commitLoop env (o.userId.getD "") (o.owner.getD "") (o.repo.getD "")
          o.includeFiles o.limit o.limit 1 { store := store } with
      | none => simp [hloop] at hout
      | some fin =>
        simp only [hloop, Option.map_some', Option.some.injEq] at hout
        subst hout
        obtain ⟨ext, hext, hfail, _⟩ := GitHub.commitLoop_log _ _ _ _ _ _ _ _ _ _ hloop
        simp only [Run.finish, List.nil_append] at hr hext ⊢
        rw [hext] at hr ⊢
        obtain ⟨h1, h2⟩ := hfail r e hr he
        exact ⟨by rw [h1], h2⟩
  · intro env u o r inc limit fuel page st e hlt he
    rw [GitHub.commitLoop, if_pos hlt]
    simp only [he]
  · intro env u o r st c e he
    unfold GitHub.processCommit
    simp [he, Except.map]
  · intro env o store out hout hu ho hr ht hno
    unfold GitHub.fetchAndStoreCommits GitHub.fetchAndStoreCommitsFuel at hout
    rw [if_neg (by simp [hu]), if_neg (by simp [ho, hr]), if_neg (by simp [ht])] at hout
    cases hloop : GitHub.commitLoop env (o.userId.getD "") (o.owner.getD "") (o.repo.getD "")
        o.includeFiles o.limit o.limit 1 { store := store } with
    | none => simp [hloop] at hout
    | some fin =>
      simp only [hloop, Option.map_some', Option.some.injEq] at hout
      subst hout
      obtain ⟨ext, hext, _, hok⟩ := GitHub.commitLoop_log _ _ _ _ _ _ _ _ _ _ hloop
      have hlog : (Run.finish fin).log = ext := by simpa [Run.finish] using hext
      rw [hlog] at hno
      exact ⟨_, finish_ok fin (hok hno)⟩
  · intro env o store ids log ht hl
    unfold Gmail.fetchAndStoreGmail
    rw [if_neg (by simp [ht])]
    dsimp only
    rw [hl]
    have hc := Gmail.processIds_counts env (o.userId.getD "default") 0 (Gmail.sliceOf o ids)
      { store := store, log := log }
    dsimp only at hc ⊢
    congr 2
    · omega
    · omega

/-- The second page of the sample channel cannot be fetched: the run throws after the
ten messages of the first page, and the failed request is its last event. -/
theorem page_failure_aborts_witness :
    (Discord.fetchAndStoreDiscord Discord.failingEnv Discord.demoOptions []).result
        = Result.threw "Discord API 500: internal error" ∧
      (Discord.fetchAndStoreDiscord Discord.failingEnv Discord.demoOptions []).log.getLast?
        = some (Event.request (1, ⟨"42", 100, some 11⟩)) ∧
      (keys (Discord.fetchAndStoreDiscord Discord.failingEnv Discord.demoOptions []).store).length
        = 10 :=
  ⟨(page_failure_aborts.1 Discord.failingEnv Discord.demoOptions [] 1 ⟨"42", 100, some 11⟩
      "Discord API 500: internal error" (by decide) rfl).1,
    (page_failure_aborts.1 Discord.failingEnv Discord.demoOptions [] 1 ⟨"42", 100, some 11⟩
      "Discord API 500: internal error" (by decide) rfl).2,
    by decide⟩

/-! ## Discord pagination over a channel -/

namespace Discord

theorem olderThan_append (b : Nat) (pre post : List Message) (m : Message) (hm : m.id = b)
    (hpre : ∀ x ∈ pre, x.id ≠ b) : olderThan b (pre ++ m :: post) = post := by
  induction pre with
  | nil => simp [olderThan, hm]
  | cons x rest ih =>
    have hx : x.id ≠ b := hpre x (by simp)
    simp only [List.cons_append, olderThan, hx, if_false]
    exact ih (fun y hy => hpre y (by simp [hy]))

/-- The messages the channel API serves for a cursor. -/
theorem channelApi_eq (channel : List Message) (p : Nat) (r : Request) :
    channelApi channel p r
      = Except.ok ((match r.before with
          | none => channel
          | some b => olderThan b channel).take r.limit) := by
  unfold channelApi
  cases r.before <;> rfl

/-- Over a channel with distinct ids, the loop over `n` pages that starts with `rest`
still to be served counts `min rest.length (n * perPage)` messages and does not throw. -/
theorem pageLoop_channel (channel : List Message) (env : Env) (u c : String) (perPage : Nat)
    (hids : (channel.map (fun m => m.id)).Nodup) (hapi : env.api = channelApi channel)
    (h1 : 1 ≤ perPage) (h100 : perPage ≤ 100) (n p : Nat) (before : Option Nat) (st : DRun)
    (pre rest : List Message) (hsplit : channel = pre ++ rest)
    (hview : (match before with
        | none => channel
        | some b => olderThan b channel) = rest) :
    (pageLoop env u c perPage n p before st).fetched
        = st.fetched + min rest.length (n * perPage) ∧
      (pageLoop env u c perPage n p before st).thrown = st.thrown := by
  induction n generalizing p before st pre rest with
  | zero => simp [pageLoop]
  | succ n ih =>
    have hmin : min perPage 100 = perPage := by omega
    have hfetch : fetchPage env p c perPage before = Except.ok (rest.take perPage) := by
      unfold fetchPage
      rw [hapi, channelApi_eq]
      simp only [hmin, hview]
    unfold pageLoop
    simp only [hfetch]
    split
    · next hemp =>
      have hnil : rest = [] := by
        cases rest with
        | nil => rfl
        | cons x xs =>
          obtain ⟨q, hq⟩ : ∃ q, perPage = q + 1 := ⟨perPage - 1, by omega⟩
          rw [hq] at hemp
          simp at hemp
      simp [hnil]
    · next hne =>
      have hne2 : rest.take perPage ≠ [] := by
        intro e
        simp [e] at hne
      have hlast : rest.take perPage
          = (rest.take perPage).dropLast ++ [(rest.take perPage).getLast hne2] :=
        (List.dropLast_append_getLast hne2).symm
      have hsplit2 : channel = (pre ++ (rest.take perPage).dropLast)
          ++ (rest.take perPage).getLast hne2 :: rest.drop perPage := by
        rw [hsplit]
        conv_lhs => rw [← List.take_append_drop perPage rest, hlast]
        simp [List.append_assoc]
      have hview2 : (match (rest.take perPage).getLast?.map (fun m => m.id) with
          | none => channel
          | some b => olderThan b channel) = rest.drop perPage := by
        rw [List.getLast?_eq_getLast _ hne2]
        simp only [Option.map_some']
        conv_lhs => rw [hsplit2]
        apply olderThan_append _ _ _ _ rfl
        intro x hx hxe
        rw [hsplit2] at hids
        simp only [List.map_append, List.map_cons] at hids
        have hd := (List.nodup_append.1 hids).2.2
        have hx2 : x.id ∈ List.map (fun m => m.id) pre
            ++ List.map (fun m => m.id) (rest.take perPage).dropLast := by
          rw [← List.map_append]
          exact List.mem_map_of_mem (fun m => m.id) hx
        exact hd hx2 (by rw [hxe]; exact List.mem_cons_self _ _)
      have hsplit3 : channel = (pre ++ rest.take perPage) ++ rest.drop perPage := by
        rw [hsplit, List.append_assoc, List.take_append_drop]
      obtain ⟨hf, ht⟩ := ih (p + 1) ((rest.take perPage).getLast?.map (fun m => m.id))
        ((rest.take perPage).foldl (processMessage env u c)
          { st with log := st.log ++ [Event.request (p, ⟨c, min perPage 100, before⟩)] })
        (pre ++ rest.take perPage) (rest.drop perPage) hsplit3 hview2
      rw [hf, ht, foldl_fetched, foldl_thrown]
      refine ⟨?_, rfl⟩
      simp only [List.length_take, List.length_drop, Nat.succ_mul]
      omega

end Discord

/-- C2: over a channel of `N` messages with distinct ids served by cursor, a run with
`pages = L` and `1 ≤ perPage = P ≤ 100` returns `requested = min N (L * P)`: that is `N`
when `L ≥ ceil(N / P)`, `min N (L * P)` when `L < ceil(N / P)`, and never more than
`L * P`. -/
theorem discord_pagination (channel : List Discord.Message) (env : Discord.Env)
    (o : Discord.Options) (store : Store Discord.Key Discord.Doc)
    (hids : (channel.map (fun m => m.id)).Nodup) (hapi : env.api = Discord.channelApi channel)
    (ht : truthy env.token = true) (hu : truthy o.userId = true)
    (hc : truthy o.channelId = true) (h1 : 1 ≤ o.perPage) (h100 : o.perPage ≤ 100) :
    ∃ c, (Discord.fetchAndStoreDiscord env o store).result = Result.returned c ∧
      c.requested = min channel.length (o.pages * o.perPage) ∧
      ((channel.length + o.perPage - 1) / o.perPage ≤ o.pages →
        c.requested = channel.length) ∧
      (o.pages < (channel.length + o.perPage - 1) / o.perPage →
        c.requested = min channel.length (o.pages * o.perPage)) ∧
      c.requested ≤ o.pages * o.perPage := by
  obtain ⟨hf, hthrown⟩ := Discord.pageLoop_channel channel env (o.userId.getD "")
    (o.channelId.getD "") o.perPage hids hapi h1 h100 o.pages 0 none { store := store }
    [] channel rfl rfl
  have hres : (Discord.fetchAndStoreDiscord env o store).result = Result.returned
      ⟨(Discord.pageLoop env (o.userId.getD "") (o.channelId.getD "") o.perPage o.pages 0 none
          { store := store }).fetched,
        (Discord.pageLoop env (o.userId.getD "") (o.channelId.getD "") o.perPage o.pages 0 none
          { store := store }).success,
        (Discord.pageLoop env (o.userId.getD "") (o.channelId.getD "") o.perPage o.pages 0 none
          { store := store }).failed⟩ := by
    unfold Discord.fetchAndStoreDiscord
    rw [if_neg (by simp [ht]), if_neg (by simp [hu]), if_neg (by simp [hc])]
    exact finish_ok _ hthrown
  refine ⟨_, hres, ?_, ?_, ?_, ?_⟩
  · simpa using hf
  · intro hceil
    have hle : channel.length ≤ o.pages * o.perPage := by
      have h := (Nat.div_le_iff_le_mul_add_pred (by omega : 0 < o.perPage)).1 hceil
      rw [Nat.mul_comm] at h
      omega
    simp only [hf, Nat.zero_add]
    omega
  · intro _
    simpa using hf
  · simp only [hf, Nat.zero_add]
    omega

set_option maxRecDepth 100000

/-- The channel of 120 messages read with `pages = 2, perPage = 100`: a page of 100 and
a page of 20 messages, `requested = 120`. -/
theorem discord_pagination_witness :
    (Discord.fetchAndStoreDiscord Discord.env120
        { userId := some "demo", channelId := some "42", pages := 2, perPage := 100 } []).result
      = Result.returned ⟨120, 120, 0⟩ ∧
    ∃ c, (Discord.fetchAndStoreDiscord Discord.env120
        { userId := some "demo", channelId := some "42", pages := 2, perPage := 100 } []).result
          = Result.returned c ∧
      c.requested = min Discord.channel120.length (2 * 100) ∧
      ((Discord.channel120.length + 100 - 1) / 100 ≤ 2 →
        c.requested = Discord.channel120.length) ∧
      (2 < (Discord.channel120.length + 100 - 1) / 100 →
        c.requested = min Discord.channel120.length (2 * 100)) ∧
      c.requested ≤ 2 * 100 :=
  ⟨by decide,
    discord_pagination Discord.channel120 Discord.env120
      { userId := some "demo", channelId := some "42", pages := 2, perPage := 100 } []
      (by decide) rfl (by decide) (by decide) (by decide) (by decide) (by decide)⟩

/-! ## Item failures -/

namespace Discord

theorem processMessage_store (env : Env) (u c : String) (st : DRun) (m : Message) :
    (∀ k, k ∈ keys st.store → k ∈ keys (processMessage env u c st m).store) ∧
      (itemFails env u c st.fetched m = false →
        (u, c, m.id) ∈ keys (processMessage env u c st m).store) := by
  cases hb : buildDoc u c (env.now st.fetched) m <;> cases hr : env.rejects st.fetched <;>
    simp [processMessage, itemFails, hb, hr, mem_keys_upsert]
  intro a b d h
  exact Or.inr h

theorem foldl_store (env : Env) (u c : String) (msgs : List Message) (st : DRun) :
    (∀ k, k ∈ keys st.store → k ∈ keys (msgs.foldl (processMessage env u c) st).store) ∧
      (∀ j m, msgs[j]? = some m → itemFails env u c (st.fetched + j) m = false →
        (u, c, m.id) ∈ keys (msgs.foldl (processMessage env u c) st).store) := by
  induction msgs generalizing st with
  | nil => simp
  | cons x rest ih =>
    obtain ⟨hmono, hmem⟩ := ih (processMessage env u c st x)
    obtain ⟨h1, h2⟩ := processMessage_store env u c st x
    refine ⟨fun k hk => hmono k (h1 k hk), fun j m hj hf => ?_⟩
    cases j with
    | zero =>
      simp only [List.getElem?_cons_zero, Option.some.injEq] at hj
      subst hj
      exact hmono _ (h2 (by simpa using hf))
    | succ j =>
      simp only [List.getElem?_cons_succ] at hj
      apply hmem j m hj
      rw [processMessage_fetched]
      rw [← hf]
      congr 1
      omega

end Discord

namespace GitHub

theorem processCommit_store (env : Env) (u o r : String) (inc : Bool) (st : GRun) (c : Commit) :
    (∀ k, k ∈ keys st.store → k ∈ keys (processCommit env u o r inc st c).store) ∧
      (itemFails env inc st.fetched c = false →
        (u, o, r, c.sha) ∈ keys (processCommit env u o r inc st c).store) := by
  cases inc <;> cases hd : env.detail st.fetched c.sha <;> cases hr : env.rejects st.fetched <;>
    simp [processCommit, getCommit, itemFails, Except.map, Except.toBool, hd, hr,
      mem_keys_upsert] <;>
    (intro a b d e h; exact Or.inr h)

/-- A page that fits below the limit is processed to its end. -/
theorem processPage_fits (env : Env) (u o r : String) (inc : Bool) (limit : Nat)
    (commits : List Commit) (st : GRun) (hfit : st.fetched + commits.length ≤ limit) :
    processPage env u o r inc limit commits st
      = commits.foldl (processCommit env u o r inc) st := by
  induction commits generalizing st with
  | nil => simp [processPage]
  | cons c rest ih =>
    simp only [List.length_cons] at hfit
    unfold processPage
    rw [if_neg (by omega), List.foldl_cons]
    exact ih _ (by rw [processCommit_fetched]; omega)

theorem commitFold_fetched (env : Env) (u o r : String) (inc : Bool) (commits : List Commit)
    (st : GRun) :
    (commits.foldl (processCommit env u o r inc) st).fetched = st.fetched + commits.length := by
  induction commits generalizing st with
  | nil => simp
  | cons c rest ih =>
    simp only [List.foldl_cons, ih, processCommit_fetched, List.length_cons]
    omega

theorem commitFold_thrown (env : Env) (u o r : String) (inc : Bool) (commits : List Commit)
    (st : GRun) :
    (commits.foldl (processCommit env u o r inc) st).thrown = st.thrown := by
  induction commits generalizing st with
  | nil => simp
  | cons c rest ih => simp only [List.foldl_cons, ih, processCommit_thrown]

theorem commitFold_counts (env : Env) (u o r : String) (inc : Bool) (commits : List Commit)
    (st : GRun) :
    (commits.foldl (processCommit env u o r inc) st).failed
        = st.failed + failures (itemFails env inc) st.fetched commits ∧
      (commits.foldl (processCommit env u o r inc) st).success
          + failures (itemFails env inc) st.fetched commits
        = st.success + commits.length := by
  induction commits generalizing st with
  | nil => simp [failures]
  | cons c rest ih =>
    have h1 := ih (processCommit env u o r inc st c)
    have h2 := processCommit_counts env u o r inc st c
    simp only [List.foldl_cons, failures, List.length_cons, processCommit_fetched] at h1 ⊢
    split_ifs at h2 ⊢ <;> omega

theorem commitFold_store (env : Env) (u o r : String) (inc : Bool) (commits : List Commit)
    (st : GRun) :
    (∀ k, k ∈ keys st.store → k ∈ keys (commits.foldl (processCommit env u o r inc) st).store) ∧
      (∀ j c, commits[j]? = some c → itemFails env inc (st.fetched + j) c = false →
        (u, o, r, c.sha) ∈ keys (commits.foldl (processCommit env u o r inc) st).store) := by
  induction commits generalizing st with
  | nil => simp
  | cons x rest ih =>
    obtain ⟨hmono, hmem⟩ := ih (processCommit env u o r inc st x)
    obtain ⟨h1, h2⟩ := processCommit_store env u o r inc st x
    refine ⟨fun k hk => hmono k (h1 k hk), fun j m hj hf => ?_⟩
    cases j with
    | zero =>
      simp only [List.getElem?_cons_zero, Option.some.injEq] at hj
      subst hj
      exact hmono _ (h2 (by simpa using hf))
    | succ j =>
      simp only [List.getElem?_cons_succ] at hj
      apply hmem j m hj
      rw [processCommit_fetched]
      rw [← hf]
      congr 1
      omega

end GitHub

namespace Gmail

theorem processId_store (env : Env) (u : String) (i : Nat) (st : MRun) (id : String) :
    (∀ k, k ∈ keys st.store → k ∈ keys (processId env u i st id).store) ∧
      (∀ msg, env.get i id = Except.ok msg → env.rejects i = false →
        (u, msg.id) ∈ keys (processId env u i st id).store) := by
  cases hg : env.get i id <;> cases hr : env.rejects i <;>
    simp [processId, hg, hr, mem_keys_upsert]
  intro a b h
  exact Or.inr h

theorem processIds_store (env : Env) (u : String) (i : Nat) (ids : List String) (st : MRun) :
    (∀ k, k ∈ keys st.store → k ∈ keys (processIds env u i ids st).store) ∧
      (∀ j id msg, ids[j]? = some id → env.get (i + j) id = Except.ok msg →
        env.rejects (i + j) = false → (u, msg.id) ∈ keys (processIds env u i ids st).store) := by
  induction ids generalizing i st with
  | nil => simp [processIds]
  | cons x rest ih =>
    obtain ⟨hmono, hmem⟩ := ih (i + 1) (processId env u i st x)
    obtain ⟨h1, h2⟩ := processId_store env u i st x
    refine ⟨fun k hk => hmono k (h1 k hk), fun j id msg hj hg hr => ?_⟩
    cases j with
    | zero =>
      simp only [List.getElem?_cons_zero, Option.some.injEq] at hj
      subst hj
      exact hmono _ (h2 msg (by simpa using hg) (by simpa using hr))
    | succ j =>
      simp only [List.getElem?_cons_succ] at hj
      have e : i + (j + 1) = i + 1 + j := by omega
      rw [e] at hg hr
      exact hmem j id msg hj hg hr

end Gmail

namespace Discord

/-- A loop over the pages that has no page left, or whose next page is empty, leaves
counters, store and pending error as they are. -/
theorem pageLoop_stop (env : Env) (u c : String) (perPage n p : Nat) (before : Option Nat)
    (st : DRun)
    (h : n = 0 ∨ env.api p ⟨c, min perPage 100, before⟩ = Except.ok []) :
    (pageLoop env u c perPage n p before st).fetched = st.fetched ∧
      (pageLoop env u c perPage n p before st).success = st.success ∧
      (pageLoop env u c perPage n p before st).failed = st.failed ∧
      (pageLoop env u c perPage n p before st).store = st.store ∧
      (pageLoop env u c perPage n p before st).thrown = st.thrown := by
  cases n with
  | zero => simp [pageLoop]
  | succ n =>
    have h2 : env.api p ⟨c, min perPage 100, before⟩ = Except.ok [] := by
      rcases h with h | h
      · cases h
      · exact h
    rw [pageLoop]
    simp [fetchPage, h2]

end Discord

namespace GitHub

/-- A loop over the pages that has reached the limit, or whose next page is empty,
ends and leaves counters, store and pending error as they are. -/
theorem commitLoop_stop (env : Env) (u o r : String) (inc : Bool) (limit fuel page : Nat)
    (st : GRun) (hfuel : limit ≤ st.fetched + fuel)
    (h : st.fetched < limit →
      env.api ⟨o, r, min (min 100 (limit - st.fetched)) 100, page⟩ = Except.ok []) :
    ∃ fin, commitLoop env u o r inc limit fuel page st = some fin ∧
      fin.fetched = st.fetched ∧ fin.success = st.success ∧ fin.failed = st.failed ∧
      fin.store = st.store ∧ fin.thrown = st.thrown := by
  cases fuel with
  | zero =>
    refine ⟨st, ?_, rfl, rfl, rfl, rfl, rfl⟩
    rw [commitLoop, if_neg (by omega)]
  | succ fuel =>
    by_cases hlt : st.fetched < limit
    · refine ⟨{ st with log := st.log ++ [Event.request (Request.list
          ⟨o, r, min (min 100 (limit - st.fetched)) 100, page⟩)] }, ?_, rfl, rfl, rfl, rfl, rfl⟩
      rw [commitLoop, if_pos hlt]
      simp only [listCommits, h hlt]
      rfl
    · exact ⟨st, by rw [commitLoop, if_neg hlt], rfl, rfl, rfl, rfl, rfl⟩

end GitHub

namespace Discord

/-- The loop over the pages never removes a key from the store. -/
theorem pageLoop_store_mono (env : Env) (u c : String) (perPage n p : Nat)
    (before : Option Nat) (st : DRun) (k : Key) (hk : k ∈ keys st.store) :
    k ∈ keys (pageLoop env u c perPage n p before st).store := by
  induction n generalizing p before st with
  | zero => simpa [pageLoop] using hk
  | succ n ih =>
    rw [pageLoop]
    dsimp only
    split
    · exact hk
    · split
      · exact hk
      · exact ih _ _ _ ((foldl_store env u c _ _).1 k hk)

end Discord

namespace GitHub

theorem processPage_store_mono (env : Env) (u o r : String) (inc : Bool) (limit : Nat)
    (commits : List Commit) (st : GRun) (k : Key) (hk : k ∈ keys st.store) :
    k ∈ keys (processPage env u o r inc limit commits st).store := by
  induction commits generalizing st with
  | nil => simpa [processPage] using hk
  | cons c rest ih =>
    rw [processPage]
    split
    · exact hk
    · exact ih _ ((processCommit_store env u o r inc st c).1 k hk)

/-- The loop over the pages never removes a key from the store. -/
theorem commitLoop_store_mono (env : Env) (u o r : String) (inc : Bool) (limit : Nat)
    (fuel page : Nat) (st fin : GRun) (k : Key) (hk : k ∈ keys st.store)
    (h : commitLoop env u o r inc limit fuel page st = some fin) : k ∈ keys fin.store := by
  induction fuel generalizing page st with
  | zero =>
    rw [commitLoop] at h
    split at h
    · cases h
    · injection h with h
      rw [← h]
      exact hk
  | succ fuel ih =>
    rw [commitLoop] at h
    split at h
    · dsimp only at h
      split at h
      · injection h with h
        rw [← h]
        exact hk
      · split at h
        · injection h with h
          rw [← h]
          exact hk
        · exact ih _ _ (processPage_store_mono env u o r inc limit _ _ k (by exact hk)) h
    · injection h with h
      rw [← h]
      exact hk

end GitHub

/-- C4: a failing item does not stop a run.  For a Discord run whose first page holds
the messages `msgs` and whose next page (if any) is empty, for a GitHub run whose first
page holds the commits `commits` (within the limit) and whose next page is empty, and
for a Gmail run over the listed ids: the run returns `requested = n`,
`failed = |F|`, `success = n - |F|` for the number `|F|` of failing positions, and
every item at a position that does not fail is in the store under its natural key.
Moreover, at any point of any Discord or GitHub run, the loop over a page of `n` items
counts all of them, `|F|` as failed and the others as successes, stores every item that
does not fail, and the rest of the run keeps it in the store. -/
theorem item_failure_isolated :
    (∀ (env : Discord.Env) (o : Discord.Options) (store : Store Discord.Key Discord.Doc)
        (msgs : List Discord.Message),
      truthy env.token = true → truthy o.userId = true → truthy o.channelId = true →
      1 ≤ o.pages →
      env.api 0 ⟨o.channelId.getD "", min o.perPage 100, none⟩ = Except.ok msgs →
      (o.pages = 1 ∨
        env.api 1 ⟨o.channelId.getD "", min o.perPage 100, msgs.getLast?.map (fun m => m.id)⟩
          = Except.ok []) →
        (Discord.fetchAndStoreDiscord env o store).result
            = Result.returned
              ⟨msgs.length,
                msgs.length - failures
                  (Discord.itemFails env (o.userId.getD "") (o.channelId.getD "")) 0 msgs,
                failures (Discord.itemFails env (o.userId.getD "") (o.channelId.getD "")) 0 msgs⟩ ∧
          ∀ j m, msgs[j]? = some m →
            Discord.itemFails env (o.userId.getD "") (o.channelId.getD "") j m = false →
              (lookup (o.userId.getD "", o.channelId.getD "", m.id)
                (Discord.fetchAndStoreDiscord env o store).store).isSome = true) ∧
    (∀ (env : GitHub.Env) (o : GitHub.Options) (store : Store GitHub.Key GitHub.Doc)
        (commits : List GitHub.Commit),
      truthy o.userId = true → truthy o.owner = true → truthy o.repo = true →
      truthy (GitHub.tokenOf env o) = true →
      env.api ⟨o.owner.getD "", o.repo.getD "", min (min 100 o.limit) 100, 1⟩
        = Except.ok commits →
      commits.length ≤ o.limit →
      (commits.length < o.limit →
        env.api ⟨o.owner.getD "", o.repo.getD "",
          min (min 100 (o.limit - commits.length)) 100, 2⟩ = Except.ok []) →
        ∃ out, GitHub.fetchAndStoreCommits env o store = some out ∧
          out.result = Result.returned
            ⟨commits.length,
              commits.length - failures (GitHub.itemFails env o.includeFiles) 0 commits,
              failures (GitHub.itemFails env o.includeFiles) 0 commits⟩ ∧
          ∀ j c, commits[j]? = some c → GitHub.itemFails env o.includeFiles j c = false →
            (lookup (o.userId.getD "", o.owner.getD "", o.repo.getD "", c.sha)
              out.store).isSome = true) ∧
    (∀ (env : Gmail.Env) (o : Gmail.Options) (store : Store Gmail.Key Gmail.Doc)
        (ids : List String) (log : List (Event Gmail.Request Gmail.Key)),
      truthy (Gmail.tokenOf env o) = true →
      Gmail.listMessageIds (Gmail.queryOf env o) (env.listing (Gmail.queryOf env o))
        none [] [] = (Except.ok ids, log) →
        (Gmail.fetchAndStoreGmail env o store).result
            = Result.returned
              ⟨(Gmail.sliceOf o ids).length,
                (Gmail.sliceOf o ids).length
                  - failures (Gmail.itemFails env) 0 (Gmail.sliceOf o ids),
                failures (Gmail.itemFails env) 0 (Gmail.sliceOf o ids)⟩ ∧
          ∀ j id msg, (Gmail.sliceOf o ids)[j]? = some id → env.get j id = Except.ok msg →
            env.rejects j = false →
              (lookup (o.userId.getD "default", msg.id)
                (Gmail.fetchAndStoreGmail env o store).store).isSome = true) ∧
    (∀ (env : Discord.Env) (u c : String) (msgs : List Discord.Message) (st : Discord.DRun),
      (msgs.foldl (Discord.processMessage env u c) st).fetched = st.fetched + msgs.length ∧
      (msgs.foldl (Discord.processMessage env u c) st).failed
        = st.failed + failures (Discord.itemFails env u c) st.fetched msgs ∧
      (msgs.foldl (Discord.processMessage env u c) st).success
          + failures (Discord.itemFails env u c) st.fetched msgs
        = st.success + msgs.length ∧
      ∀ j m, msgs[j]? = some m → Discord.itemFails env u c (st.fetched + j) m = false →
        ∀ (perPage n p : Nat) (before : Option Nat),
          (lookup (u, c, m.id) (Discord.pageLoop env u c perPage n p before
            (msgs.foldl (Discord.processMessage env u c) st)).store).isSome = true) ∧
    (∀ (env : GitHub.Env) (u o r : String) (inc : Bool) (limit : Nat)
        (commits : List GitHub.Commit) (st : GitHub.GRun),
      st.fetched + commits.length ≤ limit →
      (GitHub.processPage env u o r inc limit commits st).fetched
        = st.fetched + commits.length ∧
      (GitHub.processPage env u o r inc limit commits st).failed
        = st.failed + failures (GitHub.itemFails env inc) st.fetched commits ∧
      (GitHub.processPage env u o r inc limit commits st).success
          + failures (GitHub.itemFails env inc) st.fetched commits
        = st.success + commits.length ∧
      ∀ j c, commits[j]? = some c → GitHub.itemFails env inc (st.fetched + j) c = false →
        ∀ (fuel page : Nat) (fin : GitHub.GRun),
          GitHub.commitLoop env u o r inc limit fuel page
            (GitHub.processPage env u o r inc limit commits st) = some fin →
            (lookup (u, o, r, c.sha) fin.store).isSome = true) := by
  refine ⟨?_, ?_, ?_, ?_, ?_⟩
  · intro env o store msgs ht hu hc hp hapi hnext
    obtain ⟨n, hn⟩ : ∃ n, o.pages = n + 1 := ⟨o.pages - 1, by omega⟩
    unfold Discord.fetchAndStoreDiscord
    rw [if_neg (by simp [ht]), if_neg (by simp [hu]), if_neg (by simp [hc]), hn,
      Discord.pageLoop]
    simp only [Discord.fetchPage, hapi, List.nil_append]
    split
    · next hemp =>
      have hnil : msgs = [] := by simpa using hemp
      subst hnil
      simp [Run.finish, failures]
    · obtain ⟨h1, h2, h3, h4, h5⟩ := Discord.pageLoop_stop env (o.userId.getD "")
        (o.channelId.getD "") o.perPage n (0 + 1) (msgs.getLast?.map (fun m => m.id))
        (msgs.foldl (Discord.processMessage env (o.userId.getD "") (o.channelId.getD ""))
          { store := store,
            log := [Event.request (0, ⟨o.channelId.getD "", min o.perPage 100, none⟩)] })
        (by
          rcases hnext with h | h
          · exact Or.inl (by omega)
          · exact Or.inr h)
      have hcnt := Discord.foldl_counts env (o.userId.getD "") (o.channelId.getD "") msgs
        { store := store,
          log := [Event.request (0, ⟨o.channelId.getD "", min o.perPage 100, none⟩)] }
      have hst := Discord.foldl_store env (o.userId.getD "") (o.channelId.getD "") msgs
        { store := store,
          log := [Event.request (0, ⟨o.channelId.getD "", min o.perPage 100, none⟩)] }
      rw [Discord.foldl_thrown] at h5
      rw [Discord.foldl_fetched] at h1
      refine ⟨?_, fun j m hj hf => ?_⟩
      · rw [finish_ok _ h5, h1, h2, h3]
        dsimp only at hcnt ⊢
        congr 2
        · omega
        · omega
        · omega
      · rw [lookup_isSome_iff]
        simp only [Run.finish]
        rw [h4]
        exact hst.2 j m hj (by simpa using hf)
  · intro env o store commits hu ho hr ht hapi hfit hnext
    unfold GitHub.fetchAndStoreCommits GitHub.fetchAndStoreCommitsFuel
    rw [if_neg (by simp [hu]), if_neg (by simp [ho, hr]), if_neg (by simp [ht])]
    cases hL : o.limit with
    | zero =>
      have hnil : commits = [] := by
        rw [hL] at hfit
        exact List.length_eq_zero.1 (Nat.le_zero.1 hfit)
      subst hnil
      refine ⟨_, by rw [GitHub.commitLoop]; rfl, ?_, ?_⟩
      · simp [Run.finish, failures]
      · intro j c hj
        simp at hj
    | succ L =>
      rw [hL] at hapi hfit hnext
      rw [GitHub.commitLoop, if_pos (Nat.succ_pos _)]
      simp only [GitHub.listCommits, Nat.sub_zero, hapi, List.nil_append]
      split
      · next hemp =>
        have hnil : commits = [] := by simpa using hemp
        subst hnil
        refine ⟨_, rfl, ?_, ?_⟩
        · simp [Run.finish, failures]
        · intro j c hj
          simp at hj
      · next hne =>
        have hpos : 0 < commits.length := by
          cases commits with
          | nil => simp at hne
          | cons c cs => simp
        rw [GitHub.processPage_fits _ _ _ _ _ _ _ _ (by simpa using hfit)]
        have hcnt := GitHub.commitFold_counts env (o.userId.getD "") (o.owner.getD "")
          (o.repo.getD "") o.includeFiles commits
          { store := store,
            log := [Event.request (GitHub.Request.list
              ⟨o.owner.getD "", o.repo.getD "", min (min 100 (L + 1)) 100, 1⟩)] }
        have hst := GitHub.commitFold_store env (o.userId.getD "") (o.owner.getD "")
          (o.repo.getD "") o.includeFiles commits
          { store := store,
            log := [Event.request (GitHub.Request.list
              ⟨o.owner.getD "", o.repo.getD "", min (min 100 (L + 1)) 100, 1⟩)] }
        obtain ⟨fin, hfin, h1, h2, h3, h4, h5⟩ := GitHub.commitLoop_stop env (o.userId.getD "")
          (o.owner.getD "") (o.repo.getD "") o.includeFiles (L + 1) L (1 + 1)
          (commits.foldl (GitHub.processCommit env (o.userId.getD "") (o.owner.getD "")
            (o.repo.getD "") o.includeFiles)
            { store := store,
              log := [Event.request (GitHub.Request.list
                ⟨o.owner.getD "", o.repo.getD "", min (min 100 (L + 1)) 100, 1⟩)] })
          (by rw [GitHub.commitFold_fetched]; dsimp only; omega)
          (by
            rw [GitHub.commitFold_fetched]
            intro hlt
            simp only [Nat.zero_add] at hlt ⊢
            exact hnext hlt)
        rw [GitHub.commitFold_thrown] at h5
        rw [GitHub.commitFold_fetched] at h1
        refine ⟨fin.finish, by rw [hfin]; rfl, ?_, fun j c hj hf => ?_⟩
        · rw [finish_ok _ h5, h1, h2, h3]
          dsimp only at hcnt ⊢
          congr 2
          · omega
          · omega
          · omega
        · rw [lookup_isSome_iff]
          simp only [Run.finish]
          rw [h4]
          exact hst.2 j c hj (by simpa using hf)
  · intro env o store ids log ht hl
    unfold Gmail.fetchAndStoreGmail
    rw [if_neg (by simp [ht])]
    dsimp only
    rw [hl]
    have hc := Gmail.processIds_counts env (o.userId.getD "default") 0 (Gmail.sliceOf o ids)
      { store := store, log := log }
    have hst := Gmail.processIds_store env (o.userId.getD "default") 0 (Gmail.sliceOf o ids)
      { store := store, log := log }
    dsimp only at hc ⊢
    refine ⟨?_, fun j id msg hj hg hr => ?_⟩
    · congr 2
      · omega
      · omega
    · rw [lookup_isSome_iff]
      exact hst.2 j id msg hj (by simpa using hg) (by simpa using hr)
  · intro env u c msgs st
    refine ⟨Discord.foldl_fetched env u c msgs st, (Discord.foldl_counts env u c msgs st).1,
      (Discord.foldl_counts env u c msgs st).2, fun j m hj hf perPage n p before => ?_⟩
    rw [lookup_isSome_iff]
    exact Discord.pageLoop_store_mono env u c perPage n p before _ _
      ((Discord.foldl_store env u c msgs st).2 j m hj hf)
  · intro env u o r inc limit commits st hfit
    rw [GitHub.processPage_fits env u o r inc limit commits st hfit]
    refine ⟨GitHub.commitFold_fetched env u o r inc commits st,
      (GitHub.commitFold_counts env u o r inc commits st).1,
      (GitHub.commitFold_counts env u o r inc commits st).2, fun j c hj hf fuel page fin hfin => ?_⟩
    rw [lookup_isSome_iff]
    exact GitHub.commitLoop_store_mono env u o r inc limit fuel page _ fin _
      ((GitHub.commitFold_store env u o r inc commits st).2 j c hj hf) hfin

/-- The sample page of ten messages with one store conflict: `requested = 10`,
`success = 9`, `failed = 1`, and the first message is in the store. -/
theorem item_failure_isolated_witness :
    failures (Discord.itemFails Discord.tenEnv "demo" "42") 0 Discord.tenMessages = 1 ∧
      (Discord.fetchAndStoreDiscord Discord.tenEnv Discord.demoOptions []).result
        = Result.returned ⟨10, 10 - 1, 1⟩ ∧
      (lookup ("demo", "42", 20)
        (Discord.fetchAndStoreDiscord Discord.tenEnv Discord.demoOptions []).store).isSome
          = true :=
  ⟨by decide,
    (item_failure_isolated.1 Discord.tenEnv Discord.demoOptions [] Discord.tenMessages
      (by decide) (by decide) (by decide) (by decide) rfl (Or.inr rfl)).1,
    (item_failure_isolated.1 Discord.tenEnv Discord.demoOptions [] Discord.tenMessages
      (by decide) (by decide) (by decide) (by decide) rfl (Or.inr rfl)).2 0 { id := 20 }
      rfl (by decide)⟩

/-! ## Body extraction -/

namespace Gmail

theorem decodeBase64Url_falsy (base64 : String → String) (data : Option String)
    (h : truthy data = false) : decodeBase64Url base64 data = "" := by
  simp [decodeBase64Url, h]

mutual
/-- The walk appends to each accumulator the pre-order concatenation for its type. -/
theorem walk_eq (base64 : String → String) :
    ∀ (p : Part) (t h : String),
      walk base64 p (t, h)
        = (t ++ collect base64 "text/plain" p, h ++ collect base64 "text/html" p)
  | Part.mk mimeType hs bodyData parts, t, h => by
    rw [walk, collect, collect]
    cases hd : truthy bodyData
    · simp only [Bool.false_and, Bool.false_eq_true, if_false]
      rw [walkAll_eq base64 parts t h, decodeBase64Url_falsy base64 bodyData hd]
      simp [String.append_assoc]
    · by_cases hp : mimeType = some "text/plain"
      · subst hp
        simp only [Bool.true_and, truthy, if_true]
        rw [walkAll_eq base64 parts]
        simp [String.append_assoc]
      · by_cases hh : mimeType = some "text/html"
        · subst hh
          simp only [Bool.true_and, truthy, if_true]
          rw [walkAll_eq base64 parts]
          simp [String.append_assoc]
        · cases hm : truthy mimeType
          · simp only [Bool.and_false, Bool.false_eq_true, if_false, hp, hh]
            rw [walkAll_eq base64 parts]
            simp
          · simp only [Bool.and_self, if_true, hp, hh, if_false]
            rw [walkAll_eq base64 parts]
            simp
theorem walkAll_eq (base64 : String → String) :
    ∀ (ps : List Part) (t h : String),
      walkAll base64 ps (t, h)
        = (t ++ collectAll base64 "text/plain" ps, h ++ collectAll base64 "text/html" ps)
  | [], t, h => by simp [walkAll, collectAll]
  | p :: ps, t, h => by
    rw [walkAll, walk_eq base64 p t h, walkAll_eq base64 ps, collectAll, collectAll]
    simp [String.append_assoc]
end

mutual
theorem collect_of_not_hasPart (base64 : String → String) (mime : String) :
    ∀ (p : Part), hasPart mime p = false → collect base64 mime p = ""
  | Part.mk mimeType hs bodyData parts, hno => by
    rw [hasPart] at hno
    simp only [Bool.or_eq_false_iff, beq_eq_false_iff_ne, ne_eq] at hno
    rw [collect, if_neg hno.1, collectAll_of_not_hasPart base64 mime parts hno.2]
    rfl
theorem collectAll_of_not_hasPart (base64 : String → String) (mime : String) :
    ∀ (ps : List Part), hasPartAll mime ps = false → collectAll base64 mime ps = ""
  | [], _ => by simp [collectAll]
  | p :: ps, hno => by
    rw [hasPartAll] at hno
    simp only [Bool.or_eq_false_iff] at hno
    rw [collectAll, collect_of_not_hasPart base64 mime p hno.1,
      collectAll_of_not_hasPart base64 mime ps hno.2]
    rfl
end

end Gmail

/-- C8 (counterexample): the payload has a text/plain part, the concatenation over its
text/plain parts is empty, and yet the extracted `bodyText` is `Hi there`, derived
from the HTML body. -/
theorem extractBodies_counterexample :
    Gmail.hasPart "text/plain" Gmail.htmlOnlyMail = true ∧
      Gmail.collect (fun s => s) "text/plain" Gmail.htmlOnlyMail = "" ∧
      (Gmail.extractBodies (fun s => s) (some Gmail.htmlOnlyMail)).1 = "Hi there" ∧
      (Gmail.extractBodies (fun s => s) (some Gmail.htmlOnlyMail)).1
        ≠ Gmail.collect (fun s => s) "text/plain" Gmail.htmlOnlyMail := by
  decide

/-- C8 (amended): `bodyHtml` is the pre-order concatenation of the decoded data of the
text/html parts; `bodyText` is the concatenation over the text/plain parts when that
concatenation is not empty, and otherwise (in particular when the payload has no
text/plain part) it is `bodyHtml` with tags replaced by a blank, white space collapsed
and trimmed. -/
theorem extractBodies_amended (base64 : String → String) (p : Gmail.Part) :
    (Gmail.extractBodies base64 (some p)).2 = Gmail.collect base64 "text/html" p ∧
      (Gmail.collect base64 "text/plain" p ≠ "" →
        (Gmail.extractBodies base64 (some p)).1 = Gmail.collect base64 "text/plain" p) ∧
      (Gmail.collect base64 "text/plain" p = "" →
        (Gmail.extractBodies base64 (some p)).1
          = htmlToText (Gmail.extractBodies base64 (some p)).2) ∧
      (Gmail.hasPart "text/plain" p = false →
        (Gmail.extractBodies base64 (some p)).1
          = htmlToText (Gmail.extractBodies base64 (some p)).2) := by
  have hw : Gmail.walk base64 p ("", "")
      = (Gmail.collect base64 "text/plain" p, Gmail.collect base64 "text/html" p) := by
    rw [Gmail.walk_eq]
    simp
  have hempty : htmlToText "" = "" := by decide
  have key : Gmail.collect base64 "text/plain" p = "" →
      (Gmail.extractBodies base64 (some p)).1
        = htmlToText (Gmail.extractBodies base64 (some p)).2 := by
    intro he
    unfold Gmail.extractBodies
    simp only [hw, he]
    by_cases hh : Gmail.collect base64 "text/html" p = ""
    · simp [hh, hempty]
    · simp [hh]
  refine ⟨?_, ?_, key, fun hno => key (Gmail.collect_of_not_hasPart base64 _ p hno)⟩
  · unfold Gmail.extractBodies
    simp only [hw]
    split_ifs <;> rfl
  · intro hne
    unfold Gmail.extractBodies
    simp only [hw]
    rw [if_neg (fun h => hne h.1)]

/-- A payload with a plain-text and an HTML alternative, nested one level down: both
bodies are the concatenations; and the HTML-only payload gets its text from the HTML. -/
theorem extractBodies_amended_witness :
    (Gmail.extractBodies (fun s => s)
        (some (Gmail.Part.mk (some "multipart/mixed") [] none
          [Gmail.Part.mk (some "multipart/alternative") [] none
            [Gmail.Part.mk (some "text/plain") [] (some "Hi") [],
             Gmail.Part.mk (some "text/html") [] (some "<p>Hi</p>") []]]))).1 = "Hi" ∧
      (Gmail.extractBodies (fun s => s) (some Gmail.htmlOnlyMail)).1
        = htmlToText (Gmail.extractBodies (fun s => s) (some Gmail.htmlOnlyMail)).2 :=
  ⟨((extractBodies_amended (fun s => s) _).2.1 (by decide)).trans (by decide),
    (extractBodies_amended (fun s => s) Gmail.htmlOnlyMail).2.2.1 (by decide)⟩

/-! ## Repeated upserts -/

theorem upsertAll_append {K D : Type} [DecidableEq K] (a b : List (K × D)) (s : Store K D) :
    upsertAll (a ++ b) s = upsertAll b (upsertAll a s) := by
  simp [upsertAll, List.foldl_append]

theorem mem_keys_upsertAll {K D : Type} [DecidableEq K] (ups : List (K × D)) (s : Store K D) :
    (∀ k, k ∈ keys s → k ∈ keys (upsertAll ups s)) ∧
      (∀ kd, kd ∈ ups → kd.1 ∈ keys (upsertAll ups s)) := by
  induction ups generalizing s with
  | nil => simp [upsertAll]
  | cons x rest ih =>
    obtain ⟨h1, h2⟩ := ih (upsert x.1 x.2 s)
    refine ⟨fun k hk => h1 k ((mem_keys_upsert _ _ _ _).2 (Or.inr hk)), fun kd hkd => ?_⟩
    rcases List.mem_cons.1 hkd with h | h
    · subst h
      exact h1 _ ((mem_keys_upsert _ _ _ _).2 (Or.inl rfl))
    · exact h2 kd h

theorem keys_upsertAll_of_mem {K D : Type} [DecidableEq K] (ups : List (K × D))
    (s : Store K D) (h : ∀ kd, kd ∈ ups → kd.1 ∈ keys s) : keys (upsertAll ups s) = keys s := by
  induction ups generalizing s with
  | nil => simp [upsertAll]
  | cons x rest ih =>
    have hx : keys (upsert x.1 x.2 s) = keys s :=
      keys_upsert_of_mem _ _ _ (h x (List.mem_cons_self _ _))
    have := ih (upsert x.1 x.2 s) (fun kd hkd => by
      rw [hx]
      exact h kd (List.mem_cons_of_mem _ hkd))
    simpa [upsertAll, hx] using this

theorem nodup_keys_upsertAll {K D : Type} [DecidableEq K] (ups : List (K × D))
    (s : Store K D) (h : (keys s).Nodup) : (keys (upsertAll ups s)).Nodup := by
  induction ups generalizing s with
  | nil => simpa [upsertAll] using h
  | cons x rest ih => exact ih _ (nodup_keys_upsert _ _ _ h)

theorem lookup_upsertAll {K D : Type} [DecidableEq K] (k : K) (ups : List (K × D))
    (s : Store K D) :
    lookup k (upsertAll ups s)
      = ups.foldl (fun acc kd => if kd.1 = k then some kd.2 else acc) (lookup k s) := by
  induction ups generalizing s with
  | nil => simp [upsertAll]
  | cons x rest ih =>
    have := ih (upsert x.1 x.2 s)
    simp only [upsertAll, List.foldl_cons] at this ⊢
    rw [this, lookup_upsert]

theorem lastWrite_rel {K D : Type} [DecidableEq K] (E : D → D → Prop) (k : K)
    (ups1 ups2 : List (K × D)) (h : SameWrites E ups1 ups2) (a b : Option D)
    (hab : Option.Rel E a b) :
    Option.Rel E (ups1.foldl (fun acc kd => if kd.1 = k then some kd.2 else acc) a)
      (ups2.foldl (fun acc kd => if kd.1 = k then some kd.2 else acc) b) := by
  unfold SameWrites at h
  induction h generalizing a b with
  | nil => simpa using hab
  | cons hxy _ ih =>
    simp only [List.foldl_cons]
    apply ih
    rw [← hxy.1]
    split_ifs
    · exact Option.Rel.some hxy.2
    · exact hab

theorem lastWrite_again {K D : Type} [DecidableEq K] (E : D → D → Prop)
    (hrefl : ∀ d, E d d) (k : K) (ups1 ups2 : List (K × D)) (h : SameWrites E ups1 ups2)
    (a : Option D) :
    Option.Rel E (ups1.foldl (fun acc kd => if kd.1 = k then some kd.2 else acc) a)
      (ups2.foldl (fun acc kd => if kd.1 = k then some kd.2 else acc)
        (ups1.foldl (fun acc kd => if kd.1 = k then some kd.2 else acc) a)) := by
  unfold SameWrites at h
  induction h generalizing a with
  | nil =>
    simp only [List.foldl_nil]
    cases a with
    | none => exact Option.Rel.none
    | some d => exact Option.Rel.some (hrefl d)
  | @cons x y l1 l2 hxy hrest ih =>
    simp only [List.foldl_cons]
    by_cases hk : y.1 = k
    · have hk1 : x.1 = k := by rw [hxy.1]; exact hk
      rw [if_pos hk, if_pos hk1]
      exact lastWrite_rel E k l1 l2 hrest _ _ (Option.Rel.some hxy.2)
    · have hk1 : ¬ x.1 = k := by rw [hxy.1]; exact hk
      rw [if_neg hk, if_neg hk1]
      exact ih a

/-- Writing the same keys once more, with records related by `E`, keeps the rows of
the collection: the same keys in the same order, without duplicates, and each record
related by `E` to the one before. -/
theorem upsertAll_again {K D : Type} [DecidableEq K] (E : D → D → Prop)
    (hrefl : ∀ d, E d d) (ups1 ups2 : List (K × D)) (h : SameWrites E ups1 ups2)
    (s0 : Store K D) (hnd : (keys s0).Nodup) :
    keys (upsertAll ups2 (upsertAll ups1 s0)) = keys (upsertAll ups1 s0) ∧
      (keys (upsertAll ups1 s0)).Nodup ∧
      ∀ k, Option.Rel E (lookup k (upsertAll ups1 s0))
        (lookup k (upsertAll ups2 (upsertAll ups1 s0))) := by
  have hkeys : ups1.map Prod.fst = ups2.map Prod.fst := by
    unfold SameWrites at h
    induction h with
    | nil => rfl
    | cons hxy _ ih => simp [hxy.1, ih]
  refine ⟨?_, nodup_keys_upsertAll _ _ hnd, fun k => ?_⟩
  · apply keys_upsertAll_of_mem
    intro kd hkd
    have : kd.1 ∈ ups1.map Prod.fst := by
      rw [hkeys]
      exact List.mem_map_of_mem _ hkd
    obtain ⟨kd1, hkd1, he⟩ := List.mem_map.1 this
    rw [← he]
    exact (mem_keys_upsertAll ups1 s0).2 kd1 hkd1
  · rw [lookup_upsertAll k ups2, lookup_upsertAll k ups1]
    exact lastWrite_again E hrefl k ups1 ups2 h _

theorem SameWrites.append {K D : Type} {E : D → D → Prop} {a1 a2 b1 b2 : List (K × D)}
    (ha : SameWrites E a1 a2) (hb : SameWrites E b1 b2) :
    SameWrites E (a1 ++ b1) (a2 ++ b2) := by
  unfold SameWrites at *
  induction ha with
  | nil => simpa using hb
  | cons hxy _ ih => exact List.Forall₂.cons hxy ih

theorem SameWrites.nil {K D : Type} {E : D → D → Prop} :
    SameWrites E ([] : List (K × D)) [] :=
  List.Forall₂.nil

/-! ## The writes of a run and of its repetition at another time -/

namespace Discord

theorem buildDoc_now (u c : String) (t : Nat) (m : Message) :
    buildDoc u c t m = (buildDoc u c 0 m).map (fun d => { d with fetchedAt := t }) := by
  unfold buildDoc
  cases attachmentUrls (m.attachments.getD []) <;> rfl

theorem processMessage_twin (env : Env) (clock2 : Nat → Nat)
    (hrej : ∀ i, env.rejects i = false) (u c : String) (i : Nat) (m : Message) :
    ∃ ups1 ups2, SameWrites sameButFetchedAt ups1 ups2 ∧
      ∀ st : DRun, st.fetched = i →
        (processMessage env u c st m).store = upsertAll ups1 st.store ∧
          (processMessage { env with now := clock2 } u c st m).store
            = upsertAll ups2 st.store := by
  cases hb : buildDoc u c 0 m with
  | none =>
    refine ⟨[], [], SameWrites.nil, fun st _ => ?_⟩
    simp [processMessage, buildDoc_now u c (env.now _), buildDoc_now u c (clock2 _), hb,
      upsertAll]
  | some d =>
    refine ⟨[((u, c, m.id), { d with fetchedAt := env.now i })],
      [((u, c, m.id), { d with fetchedAt := clock2 i })],
      List.Forall₂.cons ⟨rfl, rfl⟩ List.Forall₂.nil, fun st hst => ?_⟩
    subst hst
    simp [processMessage, buildDoc_now u c (env.now _), buildDoc_now u c (clock2 _), hb,
      hrej, upsertAll]

theorem foldl_twin (env : Env) (clock2 : Nat → Nat) (hrej : ∀ i, env.rejects i = false)
    (u c : String) (msgs : List Message) (i : Nat) :
    ∃ ups1 ups2, SameWrites sameButFetchedAt ups1 ups2 ∧
      ∀ st : DRun, st.fetched = i →
        (msgs.foldl (processMessage env u c) st).store = upsertAll ups1 st.store ∧
          (msgs.foldl (processMessage { env with now := clock2 } u c) st).store
            = upsertAll ups2 st.store := by
  induction msgs generalizing i with
  | nil => exact ⟨[], [], SameWrites.nil, fun st _ => by simp [upsertAll]⟩
  | cons m rest ih =>
    obtain ⟨a1, a2, ha, hst⟩ := processMessage_twin env clock2 hrej u c i m
    obtain ⟨b1, b2, hb, hrest⟩ := ih (i + 1)
    refine ⟨a1 ++ b1, a2 ++ b2, ha.append hb, fun st hi => ?_⟩
    obtain ⟨h1, h2⟩ := hst st hi
    obtain ⟨h3, _⟩ := hrest (processMessage env u c st m)
      (by rw [processMessage_fetched, hi])
    obtain ⟨_, h4⟩ := hrest (processMessage { env with now := clock2 } u c st m)
      (by rw [processMessage_fetched, hi])
    simp only [List.foldl_cons, upsertAll_append]
    rw [h3, h4, h1, h2]
    exact ⟨rfl, rfl⟩

theorem pageLoop_twin (env : Env) (clock2 : Nat → Nat) (hrej : ∀ i, env.rejects i = false)
    (u c : String) (perPage : Nat) (n p : Nat) (before : Option Nat) (i : Nat) :
    ∃ ups1 ups2, SameWrites sameButFetchedAt ups1 ups2 ∧
      ∀ st : DRun, st.fetched = i →
        (pageLoop env u c perPage n p before st).store = upsertAll ups1 st.store ∧
          (pageLoop { env with now := clock2 } u c perPage n p before st).store
            = upsertAll ups2 st.store := by
  induction n generalizing p before i with
  | zero => exact ⟨[], [], SameWrites.nil, fun st _ => by simp [pageLoop, upsertAll]⟩
  | succ n ih =>
    cases hapi : env.api p ⟨c, min perPage 100, before⟩ with
    | error e =>
      refine ⟨[], [], SameWrites.nil, fun st _ => ?_⟩
      rw [pageLoop, pageLoop]
      simp [fetchPage, hapi, upsertAll]
    | ok msgs =>
      by_cases hemp : msgs.isEmpty = true
      · refine ⟨[], [], SameWrites.nil, fun st _ => ?_⟩
        rw [pageLoop, pageLoop]
        simp [fetchPage, hapi, hemp, upsertAll]
      · obtain ⟨a1, a2, ha, hst⟩ := foldl_twin env clock2 hrej u c msgs i
        obtain ⟨b1, b2, hb, hrest⟩ := ih (p + 1) (msgs.getLast?.map (fun m => m.id))
          (i + msgs.length)
        refine ⟨a1 ++ b1, a2 ++ b2, ha.append hb, fun st hi => ?_⟩
        obtain ⟨h1, h2⟩ := hst
          { st with log := st.log ++ [Event.request (p, ⟨c, min perPage 100, before⟩)] } hi
        obtain ⟨h3, _⟩ := hrest (msgs.foldl (processMessage env u c)
          { st with log := st.log ++ [Event.request (p, ⟨c, min perPage 100, before⟩)] })
          (by rw [foldl_fetched]; simp [hi])
        obtain ⟨_, h4⟩ := hrest (msgs.foldl (processMessage { env with now := clock2 } u c)
          { st with log := st.log ++ [Event.request (p, ⟨c, min perPage 100, before⟩)] })
          (by rw [foldl_fetched]; simp [hi])
        rw [pageLoop, pageLoop]
        simp only [fetchPage, hapi, hemp, upsertAll_append]
        rw [if_neg (by simp), if_neg (by simp), h3, h4, h1, h2]
        exact ⟨rfl, rfl⟩

end Discord

namespace GitHub

theorem processCommit_twin (env : Env) (clock2 : Nat → Nat)
    (hrej : ∀ i, env.rejects i = false) (u o r : String) (inc : Bool) (i : Nat) (c : Commit) :
    ∃ ups1 ups2, SameWrites sameButFetchedAt ups1 ups2 ∧
      ∀ st : GRun, st.fetched = i →
        (processCommit env u o r inc st c).store = upsertAll ups1 st.store ∧
          (processCommit { env with now := clock2 } u o r inc st c).store
            = upsertAll ups2 st.store := by
  cases inc with
  | false =>
    refine ⟨[((u, o, r, c.sha), buildDoc u o r (env.now i) c [] 0 0)],
      [((u, o, r, c.sha), buildDoc u o r (clock2 i) c [] 0 0)],
      List.Forall₂.cons ⟨rfl, rfl⟩ List.Forall₂.nil, fun st hst => ?_⟩
    subst hst
    simp [processCommit, hrej, upsertAll]
  | true =>
    cases hd : env.detail i c.sha with
    | error e =>
      refine ⟨[], [], SameWrites.nil, fun st hst => ?_⟩
      subst hst
      simp [processCommit, getCommit, Except.map, hd, upsertAll]
    | ok d =>
      refine ⟨[((u, o, r, c.sha), buildDoc u o r (env.now i) c (enrichment d).1
          (enrichment d).2.1 (enrichment d).2.2)],
        [((u, o, r, c.sha), buildDoc u o r (clock2 i) c (enrichment d).1
          (enrichment d).2.1 (enrichment d).2.2)],
        List.Forall₂.cons ⟨rfl, rfl⟩ List.Forall₂.nil, fun st hst => ?_⟩
      subst hst
      simp [processCommit, getCommit, Except.map, hd, hrej, upsertAll]

theorem processPage_twin (env : Env) (clock2 : Nat → Nat)
    (hrej : ∀ i, env.rejects i = false) (u o r : String) (inc : Bool) (limit : Nat)
    (commits : List Commit) (i : Nat) :
    ∃ ups1 ups2, SameWrites sameButFetchedAt ups1 ups2 ∧
      ∀ st : GRun, st.fetched = i →
        (processPage env u o r inc limit commits st).store = upsertAll ups1 st.store ∧
          (processPage { env with now := clock2 } u o r inc limit commits st).store
            = upsertAll ups2 st.store := by
  induction commits generalizing i with
  | nil => exact ⟨[], [], SameWrites.nil, fun st _ => by simp [processPage, upsertAll]⟩
  | cons c rest ih =>
    by_cases hge : i ≥ limit
    · refine ⟨[], [], SameWrites.nil, fun st hi => ?_⟩
      subst hi
      rw [processPage, processPage, if_pos hge, if_pos hge]
      simp [upsertAll]
    · obtain ⟨a1, a2, ha, hst⟩ := processCommit_twin env clock2 hrej u o r inc i c
      obtain ⟨b1, b2, hb, hrest⟩ := ih (i + 1)
      refine ⟨a1 ++ b1, a2 ++ b2, ha.append hb, fun st hi => ?_⟩
      obtain ⟨h1, h2⟩ := hst st hi
      obtain ⟨h3, _⟩ := hrest (processCommit env u o r inc st c)
        (by rw [processCommit_fetched, hi])
      obtain ⟨_, h4⟩ := hrest (processCommit { env with now := clock2 } u o r inc st c)
        (by rw [processCommit_fetched, hi])
      rw [processPage, processPage, if_neg (by rw [hi]; exact hge),
        if_neg (by rw [hi]; exact hge), upsertAll_append, upsertAll_append, h3, h4, h1, h2]
      exact ⟨rfl, rfl⟩

theorem commitLoop_twin (env : Env) (clock2 : Nat → Nat)
    (hrej : ∀ i, env.rejects i = false) (u o r : String) (inc : Bool) (limit : Nat)
    (fuel page i : Nat) :
    ∃ ups1 ups2, SameWrites sameButFetchedAt ups1 ups2 ∧
      ∀ st : GRun, st.fetched = i →
        (∀ fin, commitLoop env u o r inc limit fuel page st = some fin →
          fin.store = upsertAll ups1 st.store) ∧
        (∀ fin, commitLoop { env with now := clock2 } u o r inc limit fuel page st = some fin →
          fin.store = upsertAll ups2 st.store) := by
  induction fuel generalizing page i with
  | zero =>
    refine ⟨[], [], SameWrites.nil, fun st _ => ⟨fun fin h => ?_, fun fin h => ?_⟩⟩ <;>
    · rw [commitLoop] at h
      split at h
      · cases h
      · injection h with h
        subst h
        simp [upsertAll]
  | succ fuel ih =>
    by_cases hlt : i < limit
    · cases hapi : env.api ⟨o, r, min (min 100 (limit - i)) 100, page⟩ with
      | error e =>
        refine ⟨[], [], SameWrites.nil, fun st hi => ?_⟩
        subst hi
        refine ⟨fun fin h => ?_, fun fin h => ?_⟩ <;>
        · rw [commitLoop, if_pos hlt] at h
          simp only [listCommits, hapi] at h
          injection h with h
          subst h
          simp [upsertAll]
      | ok commits =>
        by_cases hemp : commits.isEmpty = true
        · refine ⟨[], [], SameWrites.nil, fun st hi => ?_⟩
          subst hi
          refine ⟨fun fin h => ?_, fun fin h => ?_⟩ <;>
          · rw [commitLoop, if_pos hlt] at h
            simp only [listCommits, hapi, hemp, if_true] at h
            injection h with h
            subst h
            simp [upsertAll]
        · obtain ⟨a1, a2, ha, hst⟩ := processPage_twin env clock2 hrej u o r inc limit commits i
          obtain ⟨b1, b2, hb, hrest⟩ := ih (page + 1) (min limit (i + commits.length))
          refine ⟨a1 ++ b1, a2 ++ b2, ha.append hb, fun st hi => ?_⟩
          subst hi
          obtain ⟨h1, h2⟩ := hst
            { st with log := st.log ++ [Event.request (Request.list
                ⟨o, r, min (min 100 (limit - st.fetched)) 100, page⟩)] } rfl
          obtain ⟨h3, _⟩ := hrest (processPage env u o r inc limit commits
            { st with log := st.log ++ [Event.request (Request.list
                ⟨o, r, min (min 100 (limit - st.fetched)) 100, page⟩)] })
            (processPage_fetched _ _ _ _ _ _ _ _ (Nat.le_of_lt hlt))
          obtain ⟨_, h4⟩ := hrest (processPage { env with now := clock2 } u o r inc limit commits
            { st with log := st.log ++ [Event.request (Request.list
                ⟨o, r, min (min 100 (limit - st.fetched)) 100, page⟩)] })
            (processPage_fetched _ _ _ _ _ _ _ _ (Nat.le_of_lt hlt))
          refine ⟨fun fin h => ?_, fun fin h => ?_⟩
          · rw [commitLoop, if_pos hlt] at h
            simp only [listCommits, hapi, hemp] at h
            rw [if_neg (by simp)] at h
            rw [upsertAll_append, h3 fin h, h1]
          · rw [commitLoop, if_pos hlt] at h
            simp only [listCommits, hapi, hemp] at h
            rw [if_neg (by simp)] at h
            rw [upsertAll_append, h4 fin h, h2]
    · refine ⟨[], [], SameWrites.nil, fun st hi => ?_⟩
      subst hi
      refine ⟨fun fin h => ?_, fun fin h => ?_⟩ <;>
      · rw [commitLoop, if_neg hlt] at h
        injection h with h
        subst h
        simp [upsertAll]

end GitHub

namespace Gmail

theorem processId_twin (env : Env) (clock2 : Nat → Nat) (hrej : ∀ i, env.rejects i = false)
    (E : Doc → Doc → Prop)
    (hE : ∀ i id msg, env.get i id = Except.ok msg →
      E (buildDoc env.base64 (env.now i) msg) (buildDoc env.base64 (clock2 i) msg))
    (u : String) (i : Nat) (id : String) :
    ∃ ups1 ups2, SameWrites E ups1 ups2 ∧
      ∀ st : MRun,
        (processId env u i st id).store = upsertAll ups1 st.store ∧
          (processId { env with now := clock2 } u i st id).store = upsertAll ups2 st.store := by
  cases hg : env.get i id with
  | error e =>
    refine ⟨[], [], SameWrites.nil, fun st => ?_⟩
    simp [processId, hg, upsertAll]
  | ok msg =>
    refine ⟨[((u, msg.id), buildDoc env.base64 (env.now i) msg)],
      [((u, msg.id), buildDoc env.base64 (clock2 i) msg)],
      List.Forall₂.cons ⟨rfl, hE i id msg hg⟩ List.Forall₂.nil, fun st => ?_⟩
    simp [processId, hg, hrej, upsertAll]

theorem processIds_twin (env : Env) (clock2 : Nat → Nat) (hrej : ∀ i, env.rejects i = false)
    (E : Doc → Doc → Prop)
    (hE : ∀ i id msg, env.get i id = Except.ok msg →
      E (buildDoc env.base64 (env.now i) msg) (buildDoc env.base64 (clock2 i) msg))
    (u : String) (ids : List String) (i : Nat) :
    ∃ ups1 ups2, SameWrites E ups1 ups2 ∧
      ∀ st : MRun,
        (processIds env u i ids st).store = upsertAll ups1 st.store ∧
          (processIds { env with now := clock2 } u i ids st).store
            = upsertAll ups2 st.store := by
  induction ids generalizing i with
  | nil => exact ⟨[], [], SameWrites.nil, fun st => by simp [processIds, upsertAll]⟩
  | cons id rest ih =>
    obtain ⟨a1, a2, ha, hst⟩ := processId_twin env clock2 hrej E hE u i id
    obtain ⟨b1, b2, hb, hrest⟩ := ih (i + 1)
    refine ⟨a1 ++ b1, a2 ++ b2, ha.append hb, fun st => ?_⟩
    rw [processIds, processIds, upsertAll_append, upsertAll_append,
      (hrest _).1, (hrest _).2, (hst st).1, (hst st).2]
    exact ⟨rfl, rfl⟩

end Gmail

theorem Discord.discordRun_twin (env : Discord.Env) (clock2 : Nat → Nat)
    (hrej : ∀ i, env.rejects i = false) (o : Discord.Options) :
    ∃ ups1 ups2, SameWrites Discord.sameButFetchedAt ups1 ups2 ∧
      ∀ s, (Discord.fetchAndStoreDiscord env o s).store = upsertAll ups1 s ∧
        (Discord.fetchAndStoreDiscord { env with now := clock2 } o s).store
          = upsertAll ups2 s := by
  by_cases hv : truthy env.token = true ∧ truthy o.userId = true ∧ truthy o.channelId = true
  · obtain ⟨ht, hu, hc⟩ := hv
    obtain ⟨ups1, ups2, hsw, h⟩ := Discord.pageLoop_twin env clock2 hrej (o.userId.getD "")
      (o.channelId.getD "") o.perPage o.pages 0 none 0
    refine ⟨ups1, ups2, hsw, fun s => ?_⟩
    unfold Discord.fetchAndStoreDiscord
    rw [if_neg (by simp [ht]), if_neg (by simp [hu]), if_neg (by simp [hc]),
      if_neg (by simp [ht]), if_neg (by simp [hu]), if_neg (by simp [hc])]
    exact h { store := s } rfl
  · refine ⟨[], [], SameWrites.nil, fun s => ?_⟩
    unfold Discord.fetchAndStoreDiscord
    split_ifs with h1 h2 h3 <;> first
      | exact ⟨rfl, rfl⟩
      | (simp at h1 h2 h3; exact absurd ⟨h1, h2, h3⟩ hv)

theorem GitHub.commitRun_twin (env : GitHub.Env) (clock2 : Nat → Nat)
    (hrej : ∀ i, env.rejects i = false) (o : GitHub.Options) :
    ∃ ups1 ups2, SameWrites GitHub.sameButFetchedAt ups1 ups2 ∧
      ∀ s, (∀ out, GitHub.fetchAndStoreCommits env o s = some out →
          out.store = upsertAll ups1 s) ∧
        (∀ out, GitHub.fetchAndStoreCommits { env with now := clock2 } o s = some out →
          out.store = upsertAll ups2 s) := by
  have htok : GitHub.tokenOf { env with now := clock2 } o = GitHub.tokenOf env o := rfl
  by_cases hv : truthy o.userId = true ∧ (truthy o.owner = true ∧ truthy o.repo = true) ∧
      truthy (GitHub.tokenOf env o) = true
  · obtain ⟨hu, ⟨ho, hr⟩, ht⟩ := hv
    obtain ⟨ups1, ups2, hsw, h⟩ := GitHub.commitLoop_twin env clock2 hrej (o.userId.getD "")
      (o.owner.getD "") (o.repo.getD "") o.includeFiles o.limit o.limit 1 0
    refine ⟨ups1, ups2, hsw, fun s => ⟨fun out hout => ?_, fun out hout => ?_⟩⟩
    · unfold GitHub.fetchAndStoreCommits GitHub.fetchAndStoreCommitsFuel at hout
      rw [if_neg (by simp [hu]), if_neg (by simp [ho, hr]), if_neg (by simp [ht])] at hout
      obtain ⟨fin, hfin, hf⟩ := Option.map_eq_some'.1 hout
      rw [← hf]
      exact (h { store := s } rfl).1 fin hfin
    · unfold GitHub.fetchAndStoreCommits GitHub.fetchAndStoreCommitsFuel at hout
      rw [htok, if_neg (by simp [hu]), if_neg (by simp [ho, hr]), if_neg (by simp [ht])] at hout
      obtain ⟨fin, hfin, hf⟩ := Option.map_eq_some'.1 hout
      rw [← hf]
      exact (h { store := s } rfl).2 fin hfin
  · refine ⟨[], [], SameWrites.nil, fun s => ⟨fun out hout => ?_, fun out hout => ?_⟩⟩
    · unfold GitHub.fetchAndStoreCommits GitHub.fetchAndStoreCommitsFuel at hout
      split_ifs at hout with h1 h2 h3
      · injection hout with hout
        rw [← hout]
        rfl
      · injection hout with hout
        rw [← hout]
        rfl
      · injection hout with hout
        rw [← hout]
        rfl
      · simp at h1 h2 h3
        exact absurd ⟨h1, h2, h3⟩ hv
    · unfold GitHub.fetchAndStoreCommits GitHub.fetchAndStoreCommitsFuel at hout
      rw [htok] at hout
      split_ifs at hout with h1 h2 h3
      · injection hout with hout
        rw [← hout]
        rfl
      · injection hout with hout
        rw [← hout]
        rfl
      · injection hout with hout
        rw [← hout]
        rfl
      · simp at h1 h2 h3
        exact absurd ⟨h1, h2, h3⟩ hv

theorem Gmail.store_of_ok (env : Gmail.Env) (o : Gmail.Options)
    (s : Store Gmail.Key Gmail.Doc) (ids : List String)
    (log : List (Event Gmail.Request Gmail.Key))
    (hv : truthy (Gmail.tokenOf env o) = true)
    (hl : Gmail.listMessageIds (Gmail.queryOf env o) (env.listing (Gmail.queryOf env o))
      none [] [] = (Except.ok ids, log)) :
    (Gmail.fetchAndStoreGmail env o s).store
      = (Gmail.processIds env (o.userId.getD "default") 0 (Gmail.sliceOf o ids)
          { store := s, log := log }).store := by
  unfold Gmail.fetchAndStoreGmail
  rw [if_neg (by simp [hv])]
  simp only [hl]

theorem Gmail.store_of_error (env : Gmail.Env) (o : Gmail.Options)
    (s : Store Gmail.Key Gmail.Doc) (e : String)
    (log : List (Event Gmail.Request Gmail.Key))
    (hl : Gmail.listMessageIds (Gmail.queryOf env o) (env.listing (Gmail.queryOf env o))
      none [] [] = (Except.error e, log)) :
    (Gmail.fetchAndStoreGmail env o s).store = s := by
  unfold Gmail.fetchAndStoreGmail
  split_ifs
  · rfl
  · simp only [hl]

theorem Gmail.store_of_invalid (env : Gmail.Env) (o : Gmail.Options)
    (s : Store Gmail.Key Gmail.Doc) (hv : ¬ truthy (Gmail.tokenOf env o) = true) :
    (Gmail.fetchAndStoreGmail env o s).store = s := by
  unfold Gmail.fetchAndStoreGmail
  rw [if_pos (by simpa using hv)]
  rfl

theorem Gmail.mailRun_twin (env : Gmail.Env) (clock2 : Nat → Nat)
    (hrej : ∀ i, env.rejects i = false) (E : Gmail.Doc → Gmail.Doc → Prop)
    (hE : ∀ i id msg, env.get i id = Except.ok msg →
      E (Gmail.buildDoc env.base64 (env.now i) msg) (Gmail.buildDoc env.base64 (clock2 i) msg))
    (o : Gmail.Options) :
    ∃ ups1 ups2, SameWrites E ups1 ups2 ∧
      ∀ s, (Gmail.fetchAndStoreGmail env o s).store = upsertAll ups1 s ∧
        (Gmail.fetchAndStoreGmail { env with now := clock2 } o s).store = upsertAll ups2 s := by
  by_cases hv : truthy (Gmail.tokenOf env o) = true
  · cases hl : Gmail.listMessageIds (Gmail.queryOf env o) (env.listing (Gmail.queryOf env o))
        none [] [] with
    | mk res log =>
      cases res with
      | error e =>
        refine ⟨[], [], SameWrites.nil, fun s => ⟨?_, ?_⟩⟩
        · exact Gmail.store_of_error env o s e log hl
        · exact Gmail.store_of_error { env with now := clock2 } o s e log hl
      | ok ids =>
        obtain ⟨ups1, ups2, hsw, h⟩ := Gmail.processIds_twin env clock2 hrej E hE
          (o.userId.getD "default") (Gmail.sliceOf o ids) 0
        refine ⟨ups1, ups2, hsw, fun s => ⟨?_, ?_⟩⟩
        · rw [Gmail.store_of_ok env o s ids log hv hl]
          exact (h { store := s, log := log }).1
        · rw [Gmail.store_of_ok { env with now := clock2 } o s ids log hv hl]
          exact (h { store := s, log := log }).2
  · refine ⟨[], [], SameWrites.nil, fun s => ⟨?_, ?_⟩⟩
    · exact Gmail.store_of_invalid env o s hv
    · exact Gmail.store_of_invalid { env with now := clock2 } o s hv

theorem Gmail.buildDoc_dated (base64 : String → String) (t1 t2 : Nat) (msg : Gmail.Message)
    (h : truthy (Gmail.header msg.payload "Date") = true ∨ truthy msg.internalDate = true) :
    Gmail.sameButFetchedAt (Gmail.buildDoc base64 t1 msg) (Gmail.buildDoc base64 t2 msg) := by
  unfold Gmail.sameButFetchedAt Gmail.buildDoc
  rcases h with h | h
  · simp [h]
  · by_cases hd : truthy (Gmail.header msg.payload "Date") = true
    · simp [hd]
    · simp [hd, h]

/-- C6 (counterexample): a Gmail message without `Date` header and without
`internalDate` is stored with the date of the run, so the second run changes the field
`date` of the stored record, which is not the fetch timestamp. -/
theorem rerun_counterexample :
    (lookup ("default", "m1")
        (Gmail.fetchAndStoreGmail (Gmail.undatedEnv 1700000000000) {} []).store).map
          (fun d => d.date) = some (JsDate.ms 1700000000000) ∧
      (lookup ("default", "m1")
        (Gmail.fetchAndStoreGmail (Gmail.undatedEnv 1800000000000) {}
          (Gmail.fetchAndStoreGmail (Gmail.undatedEnv 1700000000000) {} []).store).store).map
          (fun d => d.date) = some (JsDate.ms 1800000000000) := by
  decide

/-- C6 (amended): when all upserts succeed, a second run of the same fetch against the
same upstream at another time leaves the store with the same natural keys as the first
run, one row per key, and each record equal to the one after the first run in every
field but `fetchedAt`.  For Gmail this holds when every fetched message has a `Date`
header or an `internalDate`. -/
theorem rerun_idempotent_amended :
    (∀ (env : Discord.Env) (clock2 : Nat → Nat) (o : Discord.Options)
        (s0 : Store Discord.Key Discord.Doc),
      (∀ i, env.rejects i = false) → (keys s0).Nodup →
        keys (Discord.fetchAndStoreDiscord { env with now := clock2 } o
            (Discord.fetchAndStoreDiscord env o s0).store).store
          = keys (Discord.fetchAndStoreDiscord env o s0).store ∧
        (keys (Discord.fetchAndStoreDiscord env o s0).store).Nodup ∧
        ∀ k, Option.Rel Discord.sameButFetchedAt
          (lookup k (Discord.fetchAndStoreDiscord env o s0).store)
          (lookup k (Discord.fetchAndStoreDiscord { env with now := clock2 } o
            (Discord.fetchAndStoreDiscord env o s0).store).store)) ∧
    (∀ (env : GitHub.Env) (clock2 : Nat → Nat) (o : GitHub.Options)
        (s0 : Store GitHub.Key GitHub.Doc),
      (∀ i, env.rejects i = false) → (keys s0).Nodup →
        ∃ out1 out2, GitHub.fetchAndStoreCommits env o s0 = some out1 ∧
          GitHub.fetchAndStoreCommits { env with now := clock2 } o out1.store = some out2 ∧
          keys out2.store = keys out1.store ∧ (keys out1.store).Nodup ∧
          ∀ k, Option.Rel GitHub.sameButFetchedAt (lookup k out1.store) (lookup k out2.store)) ∧
    (∀ (env : Gmail.Env) (clock2 : Nat → Nat) (o : Gmail.Options)
        (s0 : Store Gmail.Key Gmail.Doc),
      (∀ i, env.rejects i = false) → (keys s0).Nodup →
      (∀ i id msg, env.get i id = Except.ok msg →
        truthy (Gmail.header msg.payload "Date") = true ∨ truthy msg.internalDate = true) →
        keys (Gmail.fetchAndStoreGmail { env with now := clock2 } o
            (Gmail.fetchAndStoreGmail env o s0).store).store
          = keys (Gmail.fetchAndStoreGmail env o s0).store ∧
        (keys (Gmail.fetchAndStoreGmail env o s0).store).Nodup ∧
        ∀ k, Option.Rel Gmail.sameButFetchedAt
          (lookup k (Gmail.fetchAndStoreGmail env o s0).store)
          (lookup k (Gmail.fetchAndStoreGmail { env with now := clock2 } o
            (Gmail.fetchAndStoreGmail env o s0).store).store)) := by
  refine ⟨?_, ?_, ?_⟩
  · intro env clock2 o s0 hrej hnd
    obtain ⟨ups1, ups2, hsw, h⟩ := Discord.discordRun_twin env clock2 hrej o
    rw [(h _).2, (h s0).1]
    exact upsertAll_again Discord.sameButFetchedAt (fun _ => rfl) ups1 ups2 hsw s0 hnd
  · intro env clock2 o s0 hrej hnd
    obtain ⟨ups1, ups2, hsw, h⟩ := GitHub.commitRun_twin env clock2 hrej o
    obtain ⟨out1, hout1, _⟩ := GitHub.fetchAndStoreCommits_ends env o s0
    obtain ⟨out2, hout2, _⟩ :=
      GitHub.fetchAndStoreCommits_ends { env with now := clock2 } o out1.store
    refine ⟨out1, out2, hout1, hout2, ?_⟩
    rw [(h _).2 out2 hout2, (h s0).1 out1 hout1]
    exact upsertAll_again GitHub.sameButFetchedAt (fun _ => rfl) ups1 ups2 hsw s0 hnd
  · intro env clock2 o s0 hrej hnd hdated
    obtain ⟨ups1, ups2, hsw, h⟩ := Gmail.mailRun_twin env clock2 hrej Gmail.sameButFetchedAt
      (fun i id msg hg => Gmail.buildDoc_dated _ _ _ msg (hdated i id msg hg)) o
    rw [(h _).2, (h s0).1]
    exact upsertAll_again Gmail.sameButFetchedAt (fun _ => rfl) ups1 ups2 hsw s0 hnd

/-- The first two pages of the sample channel fetched twice, an hour apart: the store
holds the same four keys after the second run as after the first. -/
theorem rerun_idempotent_amended_witness :
    keys (Discord.fetchAndStoreDiscord Discord.env120
        { userId := some "demo", channelId := some "42", pages := 2, perPage := 2 } []).store
      = [("demo", "42", 1120), ("demo", "42", 1119), ("demo", "42", 1118), ("demo", "42", 1117)] ∧
    keys (Discord.fetchAndStoreDiscord { Discord.env120 with now := fun i => 1700003600000 + i }
        { userId := some "demo", channelId := some "42", pages := 2, perPage := 2 }
        (Discord.fetchAndStoreDiscord Discord.env120
          { userId := some "demo", channelId := some "42", pages := 2, perPage := 2 } []).store).store
      = keys (Discord.fetchAndStoreDiscord Discord.env120
        { userId := some "demo", channelId := some "42", pages := 2, perPage := 2 } []).store :=
  ⟨by decide,
    (rerun_idempotent_amended.1 Discord.env120 (fun i => 1700003600000 + i)
      { userId := some "demo", channelId := some "42", pages := 2, perPage := 2 } []
      (fun _ => rfl) List.nodup_nil).1⟩

end BackendAC18
